import Mathlib

/-!
Verification development for the backfill-tool batch HTTP runner.

The Go source under scrutiny lives in internal/run_batch.go (the current
version of the package, the one with auth support, metrics and the failure
exporter).  Every definition below is a shallow embedding of a function of
that file, translated at the level at which the spec speaks about it:

* strings are processed as their character lists (Go iterates bytes; all
  inputs of interest here are ASCII so characters and bytes agree);
* Go maps that carry row data (map[string]string) are embedded as
  association lists whose well-formedness (unique keys) is stated where a
  proof needs it;
* Go map iteration order is unspecified, so functions that iterate a map
  (the failure exporter collecting column names) are parameterised by the
  enumeration order the iteration happened to produce;
* external collaborators (the HTTP client, the JSON codec, real time) are
  parameters: an oracle producing the outcome of one HTTP call, a parser
  and a renderer for JSON bodies, and elapsed-time values carried by the
  oracle outcomes;
* machine integers hold row counts and status codes, far below overflow,
  and are embedded as Nat.
-/

/-- One CSV record: column name to string value, as an association list
standing for Go's map[string]string (ReadCSV inserts keys in header order). -/
abbrev DataRow := List (String × String)

/-- Lookup in an association list, first binding wins (Go map access; the
rows built by ReadCSV have unique keys so first-vs-last is immaterial). -/
def lookupVal : DataRow → String → Option String
  | [], _ => none
  | (k, v) :: rest, n => if k = n then some v else lookupVal rest n

/-- Whitespace test used by strings.TrimSpace in the template engine. -/
def isWS (c : Char) : Bool := c.isWhitespace

/-- Trim of both ends of a character list, embedding strings.TrimSpace. -/
def trimChars (l : List Char) : List Char :=
  ((l.dropWhile isWS).reverse.dropWhile isWS).reverse

/-- Character class of the regex interior: anything but a closing brace. -/
def notRB (c : Char) : Bool := c ≠ '}'

/-- Condition for the regex of replaceTemplateVariables to match at the
head of the character list c :: cs: two opening braces, a non-empty run of
non-brace characters, then two closing braces.  This is exactly where Go's
regexp finds a leftmost match of the placeholder pattern: the interior class
excludes the closing brace, so the greedy interior always runs to the first
closing brace and the match succeeds iff a second one follows. -/
abbrev matchCond (c : Char) (cs : List Char) : Prop :=
  c = '{' ∧ cs.head? = some '{' ∧ cs.tail.takeWhile notRB ≠ [] ∧
    (cs.tail.dropWhile notRB).take 2 = ['}', '}']

/-- Fuel-indexed scanner of replaceTemplateVariables: walks the character
list, replacing each placeholder match by the looked-up value (the interior
is whitespace-trimmed before the case-sensitive lookup) and keeping the
matched token verbatim when the name is absent; at a position without a
match one character is copied and scanning resumes at the next position.
Fuel only forces structural recursion, every call below supplies enough. -/
def tmplScanF (row : DataRow) : Nat → List Char → List Char
  | 0, l => l
  | _ + 1, [] => []
  | fuel + 1, c :: cs =>
    if matchCond c cs then
      let inner := cs.tail.takeWhile notRB
      let rest2 := (cs.tail.dropWhile notRB).drop 2
      match lookupVal row (String.mk (trimChars inner)) with
      | some v => v.data ++ tmplScanF row fuel rest2
      | none => '{' :: '{' :: inner ++ '}' :: '}' :: tmplScanF row fuel rest2
    else
      c :: tmplScanF row fuel cs

/-- Scanner at its canonical fuel (the input length bounds the number of
scanning steps, each step consumes at least one character). -/
def substCharList (row : DataRow) (l : List Char) : List Char :=
  tmplScanF row l.length l

/-- Embedding of replaceTemplateVariables: replaces all placeholder
patterns of a template from the row data. -/
def replaceTemplateVariables (template : String) (data : DataRow) : String :=
  String.mk (substCharList data template.data)

/-- Trimmed names of the placeholder tokens the scanner matches in a
character list, in scan order (match positions do not depend on the row). -/
def tokenNamesF : Nat → List Char → List String
  | 0, _ => []
  | _ + 1, [] => []
  | fuel + 1, c :: cs =>
    if matchCond c cs then
      String.mk (trimChars (cs.tail.takeWhile notRB)) ::
        tokenNamesF fuel ((cs.tail.dropWhile notRB).drop 2)
    else
      tokenNamesF fuel cs

/-- Token names at canonical fuel. -/
def tokenNames (l : List Char) : List String := tokenNamesF l.length l

/-- Row-independent decomposition of a template by the scanner: the list
of segments the scan walks, a copied character (left) per non-matching
position and a matched token interior (right) per match.  Match positions
do not depend on the row, only the rendering of each segment does. -/
def tokenSplitF : Nat → List Char → List ((List Char) ⊕ (List Char))
  | 0, _ => []
  | _ + 1, [] => []
  | fuel + 1, c :: cs =>
    if matchCond c cs then
      Sum.inr (cs.tail.takeWhile notRB) ::
        tokenSplitF fuel ((cs.tail.dropWhile notRB).drop 2)
    else
      Sum.inl [c] :: tokenSplitF fuel cs

/-- Token decomposition at canonical fuel. -/
def tokenSplit (l : List Char) : List ((List Char) ⊕ (List Char)) :=
  tokenSplitF l.length l

/-- The original text of a decomposition segment: a copied character as it
stands, or the full verbatim token text around an interior. -/
def tokenOriginal : (List Char) ⊕ (List Char) → List Char
  | Sum.inl s => s
  | Sum.inr inner => '{' :: '{' :: (inner ++ ['}', '}'])

/-- What the scanner emits for a decomposition segment: copied characters
unchanged; a token becomes the looked-up value of its trimmed name, and
stays its original verbatim text when the name misses the row. -/
def tokenRender (row : DataRow) : (List Char) ⊕ (List Char) → List Char
  | Sum.inl s => s
  | Sum.inr inner =>
    match lookupVal row (String.mk (trimChars inner)) with
    | some v => v.data
    | none => '{' :: '{' :: (inner ++ ['}', '}'])

/-- Rows whose values are non-empty and brace-free: the regime in which
repeated substitution passes cannot create or resolve new tokens. -/
abbrev RowSafe (row : DataRow) : Prop :=
  ∀ p ∈ row, p.2 ≠ "" ∧ ∀ c ∈ p.2.data, c ≠ '{' ∧ c ≠ '}'

/-! URL building (BuildURLWithQueryParams and its net/url collaborators).
net/url is an external library; its query parsing, escaping and encoding
are embedded here following their documented behaviour, at the character
level, for the inputs this system produces. -/

/-- A query parameter of a Postman URL. -/
structure QueryParam where
  key : String
  value : String
deriving DecidableEq

/-- The URL structure of a Postman request: a raw URL string plus optional
structured query parameters. -/
structure PostmanURL where
  raw : String
  query : List QueryParam
deriving DecidableEq

/-- A parsed URL, split into everything before the query string and the raw
query string itself (fragments do not occur in this system's inputs). -/
structure URLParts where
  beforeQuery : String
  rawQuery : String
deriving DecidableEq

/-- Embedding of url.Parse for the URLs this tool builds: rejects control
characters (the parse failure mode reachable from template substitution)
and otherwise splits at the first question mark. -/
def parseURL (s : String) : Except String URLParts :=
  if s.data.any (fun c => c.toNat < 32) then
    .error "net/url: invalid control character in URL"
  else
    .ok { beforeQuery := String.mk (s.data.takeWhile (fun c => c ≠ '?')),
          rawQuery := String.mk (s.data.dropWhile (fun c => c ≠ '?')).tail }

/-- Embedding of URL.String for a parsed URL: re-attach a non-empty query. -/
def urlString (u : URLParts) : String :=
  u.beforeQuery ++ (if u.rawQuery = "" then "" else "?" ++ u.rawQuery)

/-- Split a character list at ampersands, keeping empty segments (they are
skipped by the query parser, as in net/url). -/
def splitOnAmp (l : List Char) : List (List Char) :=
  l.foldr
    (fun c acc =>
      if c = '&' then [] :: acc
      else match acc with
        | g :: gs => (c :: g) :: gs
        | [] => [[c]])
    [[]]

/-- Value of one hexadecimal digit, none for a non-digit. -/
def hexVal (c : Char) : Option Nat :=
  if '0' ≤ c ∧ c ≤ '9' then some (c.toNat - '0'.toNat)
  else if 'a' ≤ c ∧ c ≤ 'f' then some (c.toNat - 'a'.toNat + 10)
  else if 'A' ≤ c ∧ c ≤ 'F' then some (c.toNat - 'A'.toNat + 10)
  else none

/-- Embedding of url.QueryUnescape at the character level: percent escapes
are decoded, plus becomes space, malformed escapes are an error. -/
def unescapeChars : List Char → Option (List Char)
  | [] => some []
  | '%' :: h1 :: h2 :: rest =>
    match hexVal h1, hexVal h2 with
    | some a, some b => (unescapeChars rest).map (fun l => Char.ofNat (16 * a + b) :: l)
    | _, _ => none
  | ['%'] => none
  | ['%', _] => none
  | '+' :: rest => (unescapeChars rest).map (fun l => ' ' :: l)
  | c :: rest => (unescapeChars rest).map (fun l => c :: l)

/-- url.Values.Add: append one value under a key, keeping first-insertion
order of keys (order across keys is irrelevant, Encode sorts). -/
def valuesAdd : List (String × List String) → String → String → List (String × List String)
  | [], k, v => [(k, [v])]
  | (k1, vs1) :: rest, k, v =>
    if k1 = k then (k1, vs1 ++ [v]) :: rest
    else (k1, vs1) :: valuesAdd rest k v

/-- url.Values.Set: replace all values of a key by the single given one. -/
def valuesSet : List (String × List String) → String → String → List (String × List String)
  | [], k, v => [(k, [v])]
  | (k1, vs1) :: rest, k, v =>
    if k1 = k then (k1, [v]) :: rest
    else (k1, vs1) :: valuesSet rest k v

/-- Values stored under a key (the list indexing of url.Values). -/
def lookupVals : List (String × List String) → String → List String
  | [], _ => []
  | (k1, vs1) :: rest, k => if k1 = k then vs1 else lookupVals rest k

/-- Number of entries a key owns in a values list (one per key once the
unique-keys invariant of url.Values holds). -/
def countKey (vs : List (String × List String)) (k : String) : Nat :=
  (vs.map Prod.fst).count k

/-- Embedding of url.ParseQuery: split at ampersands, skip empty segments
and segments containing a semicolon, cut each segment at the first equals
sign, unescape both halves (skipping the pair on a bad escape), and Add. -/
def parseQuery (rawQuery : String) : List (String × List String) :=
  (splitOnAmp rawQuery.data).foldl
    (fun acc seg =>
      if seg = [] then acc
      else if seg.contains ';' then acc
      else
        let kpart := seg.takeWhile (fun c => c ≠ '=')
        let rest := seg.dropWhile (fun c => c ≠ '=')
        match unescapeChars kpart, unescapeChars rest.tail with
        | some k2, some v2 => valuesAdd acc (String.mk k2) (String.mk v2)
        | _, _ => acc)
    []

/-- Characters url.QueryEscape leaves alone. -/
def isUnreservedQE (c : Char) : Bool :=
  ('A' ≤ c ∧ c ≤ 'Z') ∨ ('a' ≤ c ∧ c ≤ 'z') ∨ ('0' ≤ c ∧ c ≤ '9') ∨
    c = '-' ∨ c = '_' ∨ c = '.' ∨ c = '~'

/-- Upper-case hexadecimal digit of a value below sixteen. -/
def hexDigitChar (n : Nat) : Char :=
  if n < 10 then Char.ofNat ('0'.toNat + n) else Char.ofNat ('A'.toNat + (n - 10))

/-- UTF-8 bytes of one character, as numbers. -/
def utf8Bytes (c : Char) : List Nat :=
  let n := c.toNat
  if n < 128 then [n]
  else if n < 2048 then [192 + n / 64, 128 + n % 64]
  else if n < 65536 then [224 + n / 4096, 128 + (n / 64) % 64, 128 + n % 64]
  else [240 + n / 262144, 128 + (n / 4096) % 64, 128 + (n / 64) % 64, 128 + n % 64]

/-- Embedding of url.QueryEscape: spaces become plus signs, unreserved
characters stay, everything else is percent-encoded bytewise. -/
def queryEscape (s : String) : String :=
  String.mk (s.data.foldr
    (fun c acc =>
      (if c = ' ' then ['+']
       else if isUnreservedQE c then [c]
       else (utf8Bytes c).foldr
         (fun b acc2 => '%' :: hexDigitChar (b / 16) :: hexDigitChar (b % 16) :: acc2) [])
      ++ acc)
    [])

/-- Lexicographic character-list comparison (byte order of sort.Strings on
ASCII data). -/
def charListLt : List Char → List Char → Bool
  | [], [] => false
  | [], _ :: _ => true
  | _ :: _, [] => false
  | a :: as, b :: bs => if a < b then true else if b < a then false else charListLt as bs

/-- String comparison used to sort keys in url.Values.Encode. -/
def strLt (a b : String) : Bool := charListLt a.data b.data

/-- Insertion into a sorted list of strings. -/
def insertStr (s : String) : List String → List String
  | [] => [s]
  | t :: ts => if strLt s t then s :: t :: ts else t :: insertStr s ts

/-- Ascending sort of strings (sort.Strings inside Values.Encode). -/
def sortStrings (l : List String) : List String := l.foldr insertStr []

/-- Join strings with a separator. -/
def joinWith (sep : String) : List String → String
  | [] => ""
  | [x] => x
  | x :: rest => x ++ sep ++ joinWith sep rest

/-- Embedding of url.Values.Encode: keys in sorted order, each value of a
key contributing one escaped key=value pair, joined by ampersands. -/
def encodeValues (vs : List (String × List String)) : String :=
  joinWith "&"
    ((sortStrings (vs.map Prod.fst)).flatMap
      (fun k => (lookupVals vs k).map (fun v => queryEscape k ++ "=" ++ queryEscape v)))

/-- The merge loop of BuildURLWithQueryParams: starting from the query
parameters already present in the parsed URL, each declared parameter with
a non-empty key has its value template-substituted and is Set (replacing
any previous values of that key; empty keys are skipped). -/
def mergeQueryValues (existing : List (String × List String)) (query : List QueryParam)
    (csvData : DataRow) : List (String × List String) :=
  query.foldl
    (fun acc param =>
      if param.key = "" then acc
      else valuesSet acc param.key (replaceTemplateVariables param.value csvData))
    existing

/-- Embedding of BuildURLWithQueryParams: substitute the raw URL, parse it,
and when structured query parameters are declared, merge them over the
pre-existing query string and re-encode. -/
def BuildURLWithQueryParams (postmanURL : PostmanURL) (csvData : DataRow) :
    Except String String :=
  let baseURL := replaceTemplateVariables postmanURL.raw csvData
  match parseURL baseURL with
  | .error e => .error ("invalid base URL: " ++ e)
  | .ok parsed =>
    if postmanURL.query = [] then .ok (urlString parsed)
    else
      let merged := mergeQueryValues (parseQuery parsed.rawQuery) postmanURL.query csvData
      .ok (urlString { parsed with rawQuery := encodeValues merged })

/-- Value of the last declared occurrence of a key in a parameter list (the
value that survives last-write-wins merging); empty when absent. -/
def lastValueFor (query : List QueryParam) (k : String) : String :=
  query.foldl (fun acc param => if param.key = k then param.value else acc) ""

/-! Authentication (resolveAuth, applyAuth). -/

/-- A key-value entry of a Postman auth block. -/
structure PostmanKV where
  key : String
  value : String
  kvType : String
deriving DecidableEq

/-- A Postman auth block: a type tag plus the parameter lists of the three
supported schemes. -/
structure PostmanAuth where
  authType : String
  bearer : List PostmanKV
  apikey : List PostmanKV
  basic : List PostmanKV
deriving DecidableEq

/-- Embedding of resolveAuth: a non-empty CLI token always wins and is
wrapped as a bearer auth; otherwise request-level auth; otherwise the
collection-level default (possibly none). -/
def resolveAuth (collectionAuth : Option PostmanAuth) (requestAuth : Option PostmanAuth)
    (cliToken : String) : Option PostmanAuth :=
  if cliToken ≠ "" then
    some { authType := "bearer",
           bearer := [{ key := "token", value := cliToken, kvType := "string" }],
           apikey := [], basic := [] }
  else
    match requestAuth with
    | some a => some a
    | none => collectionAuth

/-- http.Header.Set: replace all values of a header key by one value. -/
def headerSet (headers : List (String × String)) (k v : String) : List (String × String) :=
  (headers.filter (fun h => h.1 ≠ k)) ++ [(k, v)]

/-- The outgoing request a worker constructs: method, final URL, rendered
body, headers, and the credentials of SetBasicAuth when basic auth applies. -/
structure HttpRequest where
  method : String
  url : String
  body : String
  headers : List (String × String)
  basicCreds : Option (String × String)
deriving DecidableEq

/-- Value of the first entry with the given key (the bearer loop of
applyAuth breaks at the first match); empty when absent. -/
def firstField (kvs : List PostmanKV) (k : String) : String :=
  match kvs.find? (fun kv => kv.key = k) with
  | some kv => kv.value
  | none => ""

/-- Value of the last entry with the given key (the apikey and basic loops
of applyAuth keep overwriting without a break); empty when absent. -/
def lastField (kvs : List PostmanKV) (k : String) : String :=
  kvs.foldl (fun acc kv => if kv.key = k then kv.value else acc) ""

/-- Embedding of applyAuth: renders the resolved auth into the request,
substituting template variables in every credential field.  Bearer sets the
Authorization header, apikey sets the named header, basic records the
SetBasicAuth credentials; unknown types and empty credentials are no-ops. -/
def applyAuth (req : HttpRequest) (auth : Option PostmanAuth) (csvData : DataRow) :
    HttpRequest :=
  match auth with
  | none => req
  | some a =>
    if a.authType = "bearer" then
      let token := firstField a.bearer "token"
      if token ≠ "" then
        { req with headers :=
            (headerSet req.headers "Authorization"
              ("Bearer " ++ replaceTemplateVariables token csvData)) }
      else req
    else if a.authType = "apikey" then
      let keyName := lastField a.apikey "key"
      let keyValue := lastField a.apikey "value"
      if keyName ≠ "" ∧ keyValue ≠ "" then
        { req with headers :=
            (headerSet req.headers (replaceTemplateVariables keyName csvData)
              (replaceTemplateVariables keyValue csvData)) }
      else req
    else if a.authType = "basic" then
      let username := lastField a.basic "username"
      let password := lastField a.basic "password"
      if username ≠ "" then
        { req with basicCreds :=
            (some (replaceTemplateVariables username csvData,
              replaceTemplateVariables password csvData)) }
      else req
    else req

/-! Structured-body substitution (ReplaceJSONValues, replaceValuesRecursive).
The JSON codec is external; bodies are embedded at the parsed-value level. -/

/-- A parsed JSON value (numbers only pass through substitution untouched,
their representation is immaterial). -/
inductive Json where
  | jnull
  | jbool (b : Bool)
  | jnum (n : Int)
  | jstr (s : String)
  | jarr (elems : List Json)
  | jobj (fields : List (String × Json))

mutual

/-- Embedding of replaceValuesRecursive on a parsed JSON value: objects and
arrays are rewritten, scalars at the top level are untouched. -/
def replaceValuesRecursive (row : DataRow) : Json → Json
  | .jobj fields => .jobj (replaceFields row fields)
  | .jarr elems => .jarr (replaceElems row elems)
  | j => j

/-- Object fields: a key present in the row has its value replaced outright
by the row value (regardless of the old value); otherwise a string value is
template-substituted and any other value is recursed into. -/
def replaceFields (row : DataRow) : List (String × Json) → List (String × Json)
  | [] => []
  | (k, v) :: rest =>
    (match lookupVal row k with
     | some newValue => (k, Json.jstr newValue)
     | none =>
       match v with
       | .jstr s => (k, Json.jstr (replaceTemplateVariables s row))
       | _ => (k, replaceValuesRecursive row v)) :: replaceFields row rest

/-- Array elements: strings are template-substituted, anything else is
recursed into. -/
def replaceElems (row : DataRow) : List Json → List Json
  | [] => []
  | item :: rest =>
    (match item with
     | .jstr s => Json.jstr (replaceTemplateVariables s row)
     | _ => replaceValuesRecursive row item) :: replaceElems row rest

end

/-! The worker (one row, one request, one result) and its collaborators. -/

/-- A header of a Postman request. -/
structure PostmanHeader where
  key : String
  value : String
deriving DecidableEq

/-- The body of a Postman request. -/
structure PostmanBody where
  mode : String
  raw : String
deriving DecidableEq

/-- A Postman request. -/
structure PostmanRequest where
  method : String
  url : PostmanURL
  header : List PostmanHeader
  body : PostmanBody
  auth : Option PostmanAuth
deriving DecidableEq

/-- An executable (leaf) item of a Postman collection.  Folder children are
walked outside the per-item execution the claims are about and are not
carried here. -/
structure PostmanItem where
  name : String
  request : PostmanRequest
deriving DecidableEq

/-- Outcome of attempting one HTTP call, the external-world oracle of a
worker iteration: request construction can fail, the transport can fail
(timeout, connection refused, DNS failure), or a response arrives with a
status code and a body read that may itself fail.  Elapsed wall-clock time
is data of the outcome. -/
inductive HTTPOutcome where
  | reqError (msg : String)
  | transportError (msg : String) (elapsedMs : Nat)
  | response (status : Nat) (elapsedMs : Nat) (body : Except String String)

/-- Embedding of RequestResult (response time in milliseconds, timestamp
abstracted to a number). -/
structure RequestResult where
  success : Bool
  statusCode : Nat
  responseTime : Nat
  message : String
  recordInfo : String
  error : String
  url : String
  method : String
  csvData : DataRow
  requestName : String
  timestamp : Nat
deriving DecidableEq

/-- Embedding of getRecordInfo: a short identifying string for a record,
preferring well-known identifier columns. -/
def getRecordInfo (record : DataRow) : String :=
  if record = [] then "empty record"
  else
    match ["id", "ID", "name", "Name", "email", "Email"].find?
        (fun k => match lookupVal record k with | some v => v ≠ "" | none => false) with
    | some k => k ++ "=" ++ ((lookupVal record k).getD "")
    | none =>
      match record with
      | [] => "record"
      | (k, v) :: _ => k ++ "=" ++ v

/-- Response-body preview kept in a result message (first hundred
characters, then an ellipsis). -/
def truncateBody (s : String) : String :=
  if s.data.length > 100 then String.mk (s.data.take 100) ++ "..." else s

/-- The worker's body rendering: an empty body stays empty; a blank body is
returned unchanged by ReplaceJSONValues; a parseable body is rewritten at
the JSON level and re-rendered; on a parse error the worker falls back to
raw template substitution.  The JSON parser and renderer are the external
codec, passed as parameters. -/
def substituteBody (parseJson : String → Option Json) (renderJson : Json → String)
    (raw : String) (row : DataRow) : String :=
  if raw = "" then ""
  else if trimChars raw.data = [] then raw
  else
    match parseJson raw with
    | some j => renderJson (replaceValuesRecursive row j)
    | none => replaceTemplateVariables raw row

/-- The request a worker constructs for one row once the final URL is
built: body rendered, auth resolved and applied, explicit headers set after
auth (empty keys or values skipped), and a Content-Type default added when
a body is present and no Content-Type was set. -/
def buildRequest (parseJson : String → Option Json) (renderJson : Json → String)
    (item : PostmanItem) (collectionAuth : Option PostmanAuth) (cliToken : String)
    (row : DataRow) (finalURL : String) : HttpRequest :=
  let modifiedBody := substituteBody parseJson renderJson item.request.body.raw row
  let req0 : HttpRequest :=
    { method := item.request.method, url := finalURL, body := modifiedBody,
      headers := [], basicCreds := none }
  let req1 := applyAuth req0 (resolveAuth collectionAuth item.request.auth cliToken) row
  let req2 := item.request.header.foldl
    (fun r h =>
      if h.key = "" ∨ h.value = "" then r
      else { r with headers :=
              (headerSet r.headers h.key (replaceTemplateVariables h.value row)) })
    req1
  if modifiedBody ≠ "" ∧ ((lookupVal req2.headers "Content-Type").getD "") = "" then
    { req2 with headers := (headerSet req2.headers "Content-Type" "application/json") }
  else req2

/-- Embedding of one iteration of the worker loop: build the final URL (a
failure yields a failed result with no URL), construct the request, consult
the oracle for the call's outcome, and classify: request-construction and
transport failures keep status code zero and record an error; a response
sets the status code and succeeds iff the code lies in [200,300) and the
body read succeeded; a failed body read forces failure; a non-success
status records an HTTP error string.  Every branch produces exactly one
result. -/
def executeRow (parseJson : String → Option Json) (renderJson : Json → String)
    (item : PostmanItem) (collectionAuth : Option PostmanAuth) (cliToken : String)
    (oracle : HttpRequest → HTTPOutcome) (row : DataRow) : RequestResult :=
  let base : RequestResult :=
    { success := false, statusCode := 0, responseTime := 0, message := "",
      recordInfo := getRecordInfo row, error := "", url := "",
      method := item.request.method, csvData := row, requestName := item.name,
      timestamp := 0 }
  match BuildURLWithQueryParams item.request.url row with
  | .error e => { base with error := ("Error processing URL: " ++ e) }
  | .ok finalURL =>
    let req := buildRequest parseJson renderJson item collectionAuth cliToken row finalURL
    match oracle req with
    | .reqError msg =>
      { base with url := finalURL, error := ("Error creating request: " ++ msg) }
    | .transportError msg elapsed =>
      { base with
          url := finalURL
          error := ("Request failed: " ++ msg)
          responseTime := elapsed }
    | .response status elapsed bodyResult =>
      let r1 :=
        { base with
            url := finalURL
            responseTime := elapsed
            statusCode := status
            success := (decide (200 ≤ status ∧ status < 300)) }
      match bodyResult with
      | .error msg =>
        { r1 with
            error := ("Error reading response: " ++ msg)
            success := false }
      | .ok respBody =>
        let message := truncateBody respBody
        if r1.success then { r1 with message := message }
        else
          { r1 with
              message := message
              error := ("HTTP " ++ toString status ++ ": " ++ message) }

/-! Metrics aggregation (processItem's result loop). -/

/-- Embedding of RequestMetrics (times in milliseconds). -/
structure RequestMetrics where
  name : String
  totalRequests : Nat
  successCount : Nat
  failureCount : Nat
  totalTime : Nat
  minTime : Nat
  maxTime : Nat
  startTime : Nat
  endTime : Nat
  failedRequests : List RequestResult
deriving DecidableEq

/-- The metrics processItem creates before draining results: the total is
the number of records, counters are zero, and minTime starts at one hour
(in milliseconds) so the first observation lowers it. -/
def initMetrics (itemName : String) (numRecords : Nat) : RequestMetrics :=
  { name := itemName, totalRequests := numRecords, successCount := 0,
    failureCount := 0, minTime := 3600000, maxTime := 0, totalTime := 0,
    startTime := 0, endTime := 0, failedRequests := [] }

/-- One step of the result-draining loop: exactly one of the two counters
is incremented, failures are appended to failedRequests, and the timing
extremes and total are updated. -/
def stepMetrics (m : RequestMetrics) (result : RequestResult) : RequestMetrics :=
  let m1 :=
    if result.success then { m with successCount := m.successCount + 1 }
    else
      { m with
          failureCount := m.failureCount + 1
          failedRequests := (m.failedRequests ++ [result]) }
  let m2 := if result.responseTime < m1.minTime then { m1 with minTime := result.responseTime } else m1
  let m3 := if result.responseTime > m2.maxTime then { m2 with maxTime := result.responseTime } else m2
  { m3 with totalTime := m3.totalTime + result.responseTime }

/-- The aggregation of one item's result stream, in arrival order. -/
def processResults (itemName : String) (numRecords : Nat)
    (results : List RequestResult) : RequestMetrics :=
  results.foldl stepMetrics (initMetrics itemName numRecords)

/-! Failure export (saveFailedRequests) and CSV re-reading (ReadCSV). -/

/-- The six reserved fault-detail columns appended by the exporter. -/
def errorColumns : List String :=
  ["_error_status_code", "_error_message", "_error_url", "_error_method",
   "_error_timestamp", "_error_response_time_ms"]

/-- Whitespace-separated fields of a character list (strings.Fields). -/
def fieldsOf (l : List Char) : List (List Char) :=
  (l.foldr
    (fun c acc =>
      if isWS c then [] :: acc
      else match acc with
        | g :: gs => (c :: g) :: gs
        | [] => [[c]])
    [[]]).filter (fun g => g ≠ [])

/-- Embedding of cleanErrorMessage: newlines and carriage returns become
spaces, whitespace runs collapse to single spaces, and messages longer than
five hundred characters are truncated with an ellipsis. -/
def cleanErrorMessage (errMsg : String) : String :=
  let replaced := errMsg.data.map (fun c => if c = '\n' ∨ c = '\r' then ' ' else c)
  let joined := joinWith " " ((fieldsOf replaced).map String.mk)
  if joined.data.length > 500 then String.mk (joined.data.take 497) ++ "..." else joined

/-- Rendering of a result timestamp (time.Format with the RFC3339 layout is
external; the claims never inspect this column's text). -/
def formatRFC3339 (t : Nat) : String := toString t

/-- One exported CSV record: the original data columns in the exporter's
key enumeration order, then the six fault-detail values. -/
def exportRowFields (keyOrder : List String) (fr : RequestResult) : List String :=
  keyOrder.map (fun h => (lookupVal fr.csvData h).getD "")
    ++ [toString fr.statusCode, cleanErrorMessage fr.error, fr.url, fr.method,
        formatRFC3339 fr.timestamp, toString fr.responseTime]

/-- Embedding of the table saveFailedRequests writes (the csv.Writer's
encoding of each record is external and lossless): a header row of the
collected original column names followed by the fault columns, then one
record per failed request.  keyOrder is the order in which the Go map
iterations happened to enumerate the union of the rows' column names. -/
def saveFailedRequestsTable (keyOrder : List String)
    (failedRequests : List RequestResult) : List (List String) :=
  (keyOrder ++ errorColumns) :: failedRequests.map (exportRowFields keyOrder)

/-- The enumeration orders the exporter's map iteration can produce: each
column name of each failed row exactly once, and nothing else. -/
abbrev validKeyOrder (keyOrder : List String) (failedRequests : List RequestResult) : Prop :=
  keyOrder.Nodup ∧
    (∀ k ∈ keyOrder, ∃ fr ∈ failedRequests, k ∈ fr.csvData.map Prod.fst) ∧
    (∀ fr ∈ failedRequests, ∀ k ∈ fr.csvData.map Prod.fst, k ∈ keyOrder)

/-- Row construction of ReadCSV: headers are paired with the record's
fields positionally, short records padded with empty strings. -/
def mkRow : List String → List String → DataRow
  | [], _ => []
  | h :: hs, [] => (h, "") :: mkRow hs []
  | h :: hs, v :: vs => (h, v) :: mkRow hs vs

/-- Embedding of ReadCSV after the external csv.Reader has produced the
records: empty input and empty header rows are errors, the first record
names the columns, every later record becomes one row. -/
def readCSVTable (records : List (List String)) : Except String (List DataRow) :=
  match records with
  | [] => .error "CSV file is empty"
  | headers :: rest =>
    if headers = [] then .error "CSV file has no headers"
    else .ok (rest.map (mkRow headers))

/-! Concrete fixtures used by witnesses and counterexamples. -/

/-- A leaf item with a plain URL, no declared query parameters, headers,
body or auth. -/
def itemPlain : PostmanItem :=
  { name := "GetUser",
    request :=
      { method := "GET", url := { raw := "https://x", query := [] },
        header := [], body := { mode := "", raw := "" }, auth := none } }

/-- A JSON parser stub for fixtures whose bodies are empty. -/
def noJson : String → Option Json := fun _ => none

/-- A JSON renderer stub for fixtures whose bodies are empty. -/
def noRender : Json → String := fun _ => ""

/-- A row over the columns userId and name. -/
def rowUserId : DataRow := [("userId", "1"), ("name", "A")]

/-- A failed result carrying the rowUserId record. -/
def failedR : RequestResult :=
  { success := false, statusCode := 404, responseTime := 5, message := "",
    recordInfo := "userId=1", error := "HTTP 404: not found", url := "https://x",
    method := "GET", csvData := rowUserId, requestName := "GetUser", timestamp := 0 }

/-- A row whose value under a itself contains a resolvable placeholder. -/
def rowNested : DataRow := [("a", "\x7b\x7bb\x7d\x7d"), ("b", "1")]

/-- A request-level api-key auth block. -/
def apikeyAuthEx : PostmanAuth :=
  { authType := "apikey", bearer := [],
    apikey := [{ key := "key", value := "X-Key", kvType := "string" },
               { key := "value", value := "v", kvType := "string" }],
    basic := [] }

/-- A collection-level basic auth block. -/
def basicAuthEx : PostmanAuth :=
  { authType := "basic", bearer := [], apikey := [],
    basic := [{ key := "username", value := "u", kvType := "string" },
              { key := "password", value := "p", kvType := "string" }] }

/-- A fresh request with no headers. -/
def emptyReq : HttpRequest :=
  { method := "GET", url := "", body := "", headers := [], basicCreds := none }

/-- The result of executing the plain item against an empty row when the
response arrives with status 200 but the body read fails. -/
def readFailResult : RequestResult :=
  executeRow noJson noRender itemPlain none ""
    (fun _ => HTTPOutcome.response 200 5 (Except.error "read failed")) []

/-! Derived scanning equations.  The fuel argument of tmplScanF only forces
structural recursion; these lemmas recover the natural recursion of the
scanner at canonical fuel. -/

/-- takeWhile never lengthens a list. -/
theorem takeWhileLenLe (p : Char → Bool) (l : List Char) :
    (l.takeWhile p).length ≤ l.length := by
  induction l with
  | nil => simp
  | cons a l ih =>
    cases h : p a
    · simp [List.takeWhile_cons, h]
    · simp only [List.takeWhile_cons, h, if_true, List.length_cons]
      omega

/-- dropWhile never lengthens a list. -/
theorem dropWhileLenLe (p : Char → Bool) (l : List Char) :
    (l.dropWhile p).length ≤ l.length := by
  induction l with
  | nil => simp
  | cons a l ih =>
    cases h : p a
    · simp [List.dropWhile_cons, h]
    · simp only [List.dropWhile_cons, h, if_true]
      exact le_trans ih (by simp)

/-- takeWhile over a satisfying prefix followed by a failing element. -/
theorem takeWhile_append_stop (p : Char → Bool) (xs : List Char) (y : Char)
    (ys : List Char) (hxs : ∀ a ∈ xs, p a = true) (hy : p y = false) :
    (xs ++ y :: ys).takeWhile p = xs := by
  induction xs with
  | nil => simp [List.takeWhile_cons, hy]
  | cons a l ih =>
    have ha : p a = true := hxs a (by simp)
    simp only [List.cons_append, List.takeWhile_cons, ha, if_true]
    rw [ih (fun b hb => hxs b (by simp [hb]))]

/-- dropWhile over a satisfying prefix followed by a failing element. -/
theorem dropWhile_append_stop (p : Char → Bool) (xs : List Char) (y : Char)
    (ys : List Char) (hxs : ∀ a ∈ xs, p a = true) (hy : p y = false) :
    (xs ++ y :: ys).dropWhile p = y :: ys := by
  induction xs with
  | nil => simp [List.dropWhile_cons, hy]
  | cons a l ih =>
    have ha : p a = true := hxs a (by simp)
    simp only [List.cons_append, List.dropWhile_cons, ha, if_true]
    exact ih (fun b hb => hxs b (by simp [hb]))

/-- A list whose first two elements are known. -/
theorem take_two_eq {l : List Char} {a b : Char} (h : l.take 2 = [a, b]) :
    l = a :: b :: l.drop 2 := by
  cases l with
  | nil => simp at h
  | cons x t =>
    cases t with
    | nil => simp at h
    | cons y u =>
      have hx : x = a ∧ y = b := by simpa using h
      obtain ⟨rfl, rfl⟩ := hx
      rfl

/-- Unfolding of the scanner at a matching position. -/
theorem tmplScanF_succ_pos (row : DataRow) (f : Nat) (c : Char) (cs : List Char)
    (h : matchCond c cs) :
    tmplScanF row (f + 1) (c :: cs) =
      match lookupVal row (String.mk (trimChars (cs.tail.takeWhile notRB))) with
      | some v => v.data ++ tmplScanF row f ((cs.tail.dropWhile notRB).drop 2)
      | none => '{' :: '{' :: cs.tail.takeWhile notRB ++ '}' :: '}' ::
          tmplScanF row f ((cs.tail.dropWhile notRB).drop 2) := by
  simp only [tmplScanF, if_pos h]

/-- Unfolding of the scanner at a non-matching position. -/
theorem tmplScanF_succ_neg (row : DataRow) (f : Nat) (c : Char) (cs : List Char)
    (h : ¬ matchCond c cs) :
    tmplScanF row (f + 1) (c :: cs) = c :: tmplScanF row f cs := by
  simp only [tmplScanF, if_neg h]

/-- Length bound on the list remaining after a match. -/
theorem dropTwoLenLe (cs : List Char) :
    ((cs.tail.dropWhile notRB).drop 2).length ≤ cs.length := by
  have h1 := dropWhileLenLe notRB cs.tail
  have h2 : cs.tail.length ≤ cs.length := by cases cs <;> simp
  have h3 : ((cs.tail.dropWhile notRB).drop 2).length =
      (cs.tail.dropWhile notRB).length - 2 := by simp
  omega

/-- The scanner is fuel-independent once the fuel covers the input length. -/
theorem tmplScanF_fuel (row : DataRow) :
    ∀ f l, l.length ≤ f → tmplScanF row f l = tmplScanF row l.length l := by
  intro f
  induction f using Nat.strong_induction_on with
  | _ f ih =>
    intro l hl
    cases l with
    | nil => cases f <;> rfl
    | cons c cs =>
      cases f with
      | zero => exact absurd hl (by simp)
      | succ f =>
        have hcs : cs.length ≤ f := by simpa using hl
        have hlt : f < f + 1 := Nat.lt_succ_self f
        have hcslt : cs.length < f + 1 := Nat.lt_succ_of_le hcs
        show _ = tmplScanF row (cs.length + 1) (c :: cs)
        by_cases h : matchCond c cs
        · have hr2 := dropTwoLenLe cs
          rw [tmplScanF_succ_pos row f c cs h, tmplScanF_succ_pos row cs.length c cs h]
          have e1 := ih f hlt ((cs.tail.dropWhile notRB).drop 2) (le_trans hr2 hcs)
          have e2 := ih cs.length hcslt ((cs.tail.dropWhile notRB).drop 2) hr2
          rw [e1, e2]
        · rw [tmplScanF_succ_neg row f c cs h, tmplScanF_succ_neg row cs.length c cs h,
            ih f hlt cs hcs, ih cs.length hcslt cs le_rfl]

/-- Scanning an empty list. -/
theorem substCharList_nil (row : DataRow) : substCharList row [] = [] := rfl

/-- Scanning step at a non-matching position. -/
theorem substCharList_cons_neg (row : DataRow) (c : Char) (cs : List Char)
    (h : ¬ matchCond c cs) :
    substCharList row (c :: cs) = c :: substCharList row cs := by
  show tmplScanF row (cs.length + 1) (c :: cs) = _
  rw [tmplScanF_succ_neg row cs.length c cs h]
  rfl

/-- Scanning step at a matching position, in terms of the canonical fuel. -/
theorem substCharList_cons_pos (row : DataRow) (c : Char) (cs : List Char)
    (h : matchCond c cs) :
    substCharList row (c :: cs) =
      match lookupVal row (String.mk (trimChars (cs.tail.takeWhile notRB))) with
      | some v => v.data ++ substCharList row ((cs.tail.dropWhile notRB).drop 2)
      | none => '{' :: '{' :: cs.tail.takeWhile notRB ++ '}' :: '}' ::
          substCharList row ((cs.tail.dropWhile notRB).drop 2) := by
  show tmplScanF row (cs.length + 1) (c :: cs) = _
  rw [tmplScanF_succ_pos row cs.length c cs h,
    tmplScanF_fuel row cs.length _ (dropTwoLenLe cs)]
  rfl

/-- Shape of the input at a matching position. -/
theorem matchCond_elim {c : Char} {cs : List Char} (h : matchCond c cs) :
    c = '{' ∧ ∃ inner rest2, cs = '{' :: (inner ++ '}' :: '}' :: rest2) ∧
      inner ≠ [] ∧ (∀ a ∈ inner, notRB a = true) ∧
      inner = cs.tail.takeWhile notRB ∧ rest2 = (cs.tail.dropWhile notRB).drop 2 := by
  obtain ⟨hc, hh, hne, htake⟩ := h
  cases cs with
  | nil => simp at hh
  | cons c1 t =>
    have hc1 : c1 = '{' := by simpa using hh
    refine ⟨hc, t.takeWhile notRB, (t.dropWhile notRB).drop 2, ?_, ?_, ?_, rfl, rfl⟩
    · have hd : t.dropWhile notRB = '}' :: '}' :: (t.dropWhile notRB).drop 2 :=
        take_two_eq (by simpa using htake)
      rw [hc1]
      conv_lhs => rw [← List.takeWhile_append_dropWhile (p := notRB) (l := t)]
      rw [← hd]
    · simpa using hne
    · intro a ha
      exact List.mem_takeWhile_imp (by simpa using ha)

/-- Scanning a token: the matched interior is trimmed, looked up, and
replaced or kept verbatim. -/
theorem substCharList_token (row : DataRow) (inner rest2 : List Char)
    (hne : inner ≠ []) (hmem : ∀ a ∈ inner, notRB a = true) :
    substCharList row ('{' :: '{' :: (inner ++ '}' :: '}' :: rest2)) =
      match lookupVal row (String.mk (trimChars inner)) with
      | some v => v.data ++ substCharList row rest2
      | none => '{' :: '{' :: inner ++ '}' :: '}' :: substCharList row rest2 := by
  have hrb : notRB '}' = false := by decide
  have htw : (inner ++ '}' :: '}' :: rest2).takeWhile notRB = inner :=
    takeWhile_append_stop notRB inner '}' ('}' :: rest2) hmem hrb
  have hdw : (inner ++ '}' :: '}' :: rest2).dropWhile notRB = '}' :: '}' :: rest2 :=
    dropWhile_append_stop notRB inner '}' ('}' :: rest2) hmem hrb
  have hcond : matchCond '{' ('{' :: (inner ++ '}' :: '}' :: rest2)) := by
    refine ⟨rfl, rfl, ?_, ?_⟩
    · simpa [htw] using hne
    · simp [hdw]
  rw [substCharList_cons_pos row '{' _ hcond]
  simp only [List.tail_cons, htw, hdw, List.drop_succ_cons, List.drop_zero]

/-- Unfolding of the token-name collector at a matching position. -/
theorem tokenNamesF_succ_pos (f : Nat) (c : Char) (cs : List Char)
    (h : matchCond c cs) :
    tokenNamesF (f + 1) (c :: cs) =
      String.mk (trimChars (cs.tail.takeWhile notRB)) ::
        tokenNamesF f ((cs.tail.dropWhile notRB).drop 2) := by
  simp only [tokenNamesF, if_pos h]

/-- Unfolding of the token-name collector at a non-matching position. -/
theorem tokenNamesF_succ_neg (f : Nat) (c : Char) (cs : List Char)
    (h : ¬ matchCond c cs) :
    tokenNamesF (f + 1) (c :: cs) = tokenNamesF f cs := by
  simp only [tokenNamesF, if_neg h]

/-- The token-name collector is fuel-independent above the input length. -/
theorem tokenNamesF_fuel :
    ∀ f l, l.length ≤ f → tokenNamesF f l = tokenNamesF l.length l := by
  intro f
  induction f using Nat.strong_induction_on with
  | _ f ih =>
    intro l hl
    cases l with
    | nil => cases f <;> rfl
    | cons c cs =>
      cases f with
      | zero => exact absurd hl (by simp)
      | succ f =>
        have hcs : cs.length ≤ f := by simpa using hl
        have hlt : f < f + 1 := Nat.lt_succ_self f
        have hcslt : cs.length < f + 1 := Nat.lt_succ_of_le hcs
        show _ = tokenNamesF (cs.length + 1) (c :: cs)
        by_cases h : matchCond c cs
        · have hr2 := dropTwoLenLe cs
          rw [tokenNamesF_succ_pos f c cs h, tokenNamesF_succ_pos cs.length c cs h,
            ih f hlt ((cs.tail.dropWhile notRB).drop 2) (le_trans hr2 hcs),
            ih cs.length hcslt ((cs.tail.dropWhile notRB).drop 2) hr2]
        · rw [tokenNamesF_succ_neg f c cs h, tokenNamesF_succ_neg cs.length c cs h,
            ih f hlt cs hcs, ih cs.length hcslt cs le_rfl]

/-- Token names of a non-matching step. -/
theorem tokenNames_cons_neg (c : Char) (cs : List Char) (h : ¬ matchCond c cs) :
    tokenNames (c :: cs) = tokenNames cs := by
  show tokenNamesF (cs.length + 1) (c :: cs) = _
  rw [tokenNamesF_succ_neg cs.length c cs h]
  rfl

/-- Token names of a token-headed list. -/
theorem tokenNames_token (inner rest2 : List Char) (hne : inner ≠ [])
    (hmem : ∀ a ∈ inner, notRB a = true) :
    tokenNames ('{' :: '{' :: (inner ++ '}' :: '}' :: rest2)) =
      String.mk (trimChars inner) :: tokenNames rest2 := by
  have hrb : notRB '}' = false := by decide
  have htw : (inner ++ '}' :: '}' :: rest2).takeWhile notRB = inner :=
    takeWhile_append_stop notRB inner '}' ('}' :: rest2) hmem hrb
  have hdw : (inner ++ '}' :: '}' :: rest2).dropWhile notRB = '}' :: '}' :: rest2 :=
    dropWhile_append_stop notRB inner '}' ('}' :: rest2) hmem hrb
  have hcond : matchCond '{' ('{' :: (inner ++ '}' :: '}' :: rest2)) := by
    refine ⟨rfl, rfl, ?_, ?_⟩
    · simpa [htw] using hne
    · simp [hdw]
  show tokenNamesF (('{' :: (inner ++ '}' :: '}' :: rest2)).length + 1) _ = _
  rw [tokenNamesF_succ_pos _ '{' _ hcond]
  simp only [List.tail_cons, htw, hdw, List.drop_succ_cons, List.drop_zero]
  rw [tokenNamesF_fuel _ rest2
    (by simp only [List.length_cons, List.length_append]; omega)]
  rfl

/-! Helper lemmas about the scanner, towards idempotence of substitution. -/

/-- notRB unfolded. -/
theorem notRB_iff {a : Char} : notRB a = true ↔ a ≠ '}' := by simp [notRB]

/-- No match can start at a character other than an opening brace. -/
theorem matchCond_not_lbrace {c : Char} {cs : List Char} (h : c ≠ '{') :
    ¬ matchCond c cs := fun hm => h hm.1

/-- No match can continue without a second opening brace. -/
theorem matchCond_not_head {c : Char} {cs : List Char} (h : cs.head? ≠ some '{') :
    ¬ matchCond c cs := fun hm => h hm.2.1

/-- A successful lookup exhibits a binding of the row. -/
theorem lookupVal_mem {row : DataRow} {n v : String} (h : lookupVal row n = some v) :
    (n, v) ∈ row := by
  induction row with
  | nil => simp [lookupVal] at h
  | cons p rest ih =>
    obtain ⟨k, v0⟩ := p
    by_cases hk : k = n
    · subst hk
      have h' : some v0 = some v := by simpa [lookupVal] using h
      cases h'
      exact List.mem_cons_self _ _
    · simp only [lookupVal, if_neg hk] at h
      exact List.mem_cons_of_mem _ (ih h)

/-- A non-empty string has a non-empty character list. -/
theorem dataNeNil {v : String} (h : v ≠ "") : v.data ≠ [] := by
  intro hd
  cases v with
  | mk l =>
    have hl : l = [] := by simpa using hd
    subst hl
    exact h rfl

/-- Scanning out of a prefix without opening braces copies it. -/
theorem substCharList_append_no_lbrace (row : DataRow) (v X : List Char)
    (hv : ∀ a ∈ v, a ≠ '{') :
    substCharList row (v ++ X) = v ++ substCharList row X := by
  induction v with
  | nil => rfl
  | cons a v ih =>
    have ha : a ≠ '{' := hv a (by simp)
    rw [List.cons_append, substCharList_cons_neg row a _ (matchCond_not_lbrace ha),
      ih (fun b hb => hv b (by simp [hb]))]
    rfl

/-- The scan of a list with no adjacent pair of closing braces is the list
itself: no token can close. -/
theorem substCharList_no_double_rbrace (row : DataRow) :
    ∀ l, ¬ (['}', '}'] <:+: l) → substCharList row l = l := by
  have key : ∀ n l, l.length ≤ n → ¬ (['}', '}'] <:+: l) → substCharList row l = l := by
    intro n
    induction n with
    | zero =>
      intro l hl _
      cases l with
      | nil => rfl
      | cons c cs => simp at hl
    | succ n ih =>
      intro l hl hinf
      cases l with
      | nil => rfl
      | cons c cs =>
        by_cases h : matchCond c cs
        · exfalso
          obtain ⟨hc, inner, rest2, hcs, _, _, _, _⟩ := matchCond_elim h
          apply hinf
          refine ⟨c :: '{' :: inner, rest2, ?_⟩
          simp [hcs]
        · rw [substCharList_cons_neg row c cs h,
            ih cs (by simpa using hl) (fun hx => hinf (List.infix_cons hx))]
  intro l
  exact key l.length l le_rfl

/-- A list with at most one closing brace has no adjacent pair of them. -/
theorem no_double_rbrace_of_count {l : List Char} (h : l.count '}' ≤ 1) :
    ¬ (['}', '}'] <:+: l) := by
  intro hinf
  have := hinf.sublist.count_le '}'
  simp at this
  omega

/-- The head of a dropWhile result fails the predicate. -/
theorem dropWhile_head_false {p : Char → Bool} {l : List Char} {y : Char}
    {ys : List Char} (h : l.dropWhile p = y :: ys) : p y = false := by
  induction l with
  | nil => simp at h
  | cons a l ih =>
    cases hp : p a
    · rw [List.dropWhile_cons_of_neg (by simp [hp])] at h
      cases h
      exact hp
    · rw [List.dropWhile_cons_of_pos (by simp [hp])] at h
      exact ih h

/-- Scanning a region whose only closing brace is single and followed by a
non-brace copies the region: no token can close inside it. -/
theorem substCharList_seg (row : DataRow) :
    ∀ (A : List Char) (c : Char) (B : List Char), (∀ a ∈ A, a ≠ '}') → c ≠ '}' →
      substCharList row (A ++ '}' :: c :: B) = A ++ '}' :: substCharList row (c :: B) := by
  intro A
  induction A with
  | nil =>
    intro c B _ _
    exact substCharList_cons_neg row '}' (c :: B) (matchCond_not_lbrace (by decide))
  | cons a A ih =>
    intro c B hA hc
    have hA' : ∀ b ∈ A, b ≠ '}' := fun b hb => hA b (by simp [hb])
    have hnm : ¬ matchCond a (A ++ '}' :: c :: B) := by
      intro hm
      obtain ⟨ha, hh, _, htake⟩ := hm
      cases A with
      | nil => simp at hh
      | cons a1 A1 =>
        have hmem : ∀ b ∈ A1, notRB b = true :=
          fun b hb => notRB_iff.mpr (hA' b (by simp [hb]))
        have hdw : (A1 ++ '}' :: c :: B).dropWhile notRB = '}' :: c :: B :=
          dropWhile_append_stop notRB A1 '}' (c :: B) hmem (by decide)
        rw [List.cons_append, List.tail_cons, hdw] at htake
        simp at htake
        exact hc htake
    rw [List.cons_append, substCharList_cons_neg row a _ hnm,
      ih c B hA' hc]
    rfl

/-- Shape of the scan of a non-empty list under a safe row: the output is
non-empty, the head cannot be a closing brace unless the input head was,
and a non-brace input head is copied. -/
theorem substHead (row : DataRow) (hrow : RowSafe row) (c : Char) (cs : List Char) :
    ∃ d ds, substCharList row (c :: cs) = d :: ds ∧ (c ≠ '}' → d ≠ '}') ∧
      (c ≠ '{' → d = c) := by
  by_cases h : matchCond c cs
  · obtain ⟨hc, inner, rest2, hcs, hne, hmem, _, _⟩ := matchCond_elim h
    subst hc
    subst hcs
    cases hlook : lookupVal row (String.mk (trimChars inner)) with
    | some v =>
      have hv := hrow _ (lookupVal_mem hlook)
      have hvd : v.data ≠ [] := dataNeNil hv.1
      cases hvd2 : v.data with
      | nil => exact absurd hvd2 hvd
      | cons d ds0 =>
        refine ⟨d, ds0 ++ substCharList row rest2, ?_, ?_, ?_⟩
        · rw [substCharList_token row inner rest2 hne hmem]
          simp [hlook, hvd2]
        · intro _
          have := (hv.2 d (by simp [hvd2])).2
          exact this
        · intro hfalse
          exact absurd rfl hfalse
    | none =>
      refine ⟨'{', '{' :: inner ++ '}' :: '}' :: substCharList row rest2, ?_, ?_, ?_⟩
      · rw [substCharList_token row inner rest2 hne hmem]
        simp [hlook]
      · intro _
        decide
      · intro hfalse
        exact absurd rfl hfalse
  · exact ⟨c, substCharList row cs, substCharList_cons_neg row c cs h,
      fun hc => hc, fun _ => rfl⟩

/-- Under a safe row (non-empty, brace-free values) the scanner is
idempotent: a second pass over its output changes nothing.  The case
analysis follows the scanner's first step; the delicate cases are a dangling
opening-brace pair whose closing braces sit further right, where the second
pass must be shown not to complete a token that the first pass could not. -/
theorem substCharList_idem (row : DataRow) (hrow : RowSafe row) :
    ∀ l, substCharList row (substCharList row l) = substCharList row l := by
  have key : ∀ n l, l.length ≤ n →
      substCharList row (substCharList row l) = substCharList row l := by
    intro n
    induction n with
    | zero =>
      intro l hl
      cases l with
      | nil => rfl
      | cons c cs => simp at hl
    | succ n ih =>
      intro l hl
      cases l with
      | nil => rfl
      | cons c cs =>
        have hcs_len : cs.length ≤ n := by simpa using hl
        by_cases h : matchCond c cs
        · obtain ⟨hc, inner, rest2, hcs, hne, hmem, _, _⟩ := matchCond_elim h
          subst hc
          subst hcs
          have hr2len : rest2.length ≤ n := by
            simp only [List.length_cons, List.length_append] at hcs_len
            omega
          cases hlook : lookupVal row (String.mk (trimChars inner)) with
          | some v =>
            rw [substCharList_token row inner rest2 hne hmem]
            simp only [hlook]
            have hv := hrow _ (lookupVal_mem hlook)
            have hnol : ∀ a ∈ v.data, a ≠ '{' := fun a ha => (hv.2 a ha).1
            rw [substCharList_append_no_lbrace row v.data _ hnol, ih rest2 hr2len]
          | none =>
            rw [substCharList_token row inner rest2 hne hmem]
            simp only [hlook]
            have htok2 := substCharList_token row inner (substCharList row rest2) hne hmem
            rw [hlook] at htok2
            show substCharList row
                ('{' :: '{' :: (inner ++ '}' :: '}' :: substCharList row rest2)) =
              '{' :: '{' :: inner ++ '}' :: '}' :: substCharList row rest2
            rw [htok2, ih rest2 hr2len]
        · rw [substCharList_cons_neg row c cs h]
          by_cases hc : c = '{'
          case neg =>
            rw [substCharList_cons_neg row c _ (matchCond_not_lbrace hc), ih cs hcs_len]
          case pos =>
            subst hc
            cases cs with
            | nil =>
              have S0 : substCharList row ['{'] = ['{'] := by
                rw [substCharList_cons_neg row '{' [] (matchCond_not_head (by simp))]
                rfl
              exact S0
            | cons c1 t =>
              by_cases hc1 : c1 = '{'
              case neg =>
                obtain ⟨d, ds, hS, _, hcopy⟩ := substHead row hrow c1 t
                have hd : d = c1 := hcopy hc1
                rw [hS]
                have hnm2 : ¬ matchCond '{' (d :: ds) :=
                  matchCond_not_head (by simp [hd, hc1])
                rw [substCharList_cons_neg row '{' _ hnm2, ← hS, ih (c1 :: t) hcs_len]
              case pos =>
                subst hc1
                cases hA : t.takeWhile notRB with
                | nil =>
                  cases t with
                  | nil =>
                    have S0 : substCharList row ['{'] = ['{'] := by
                      rw [substCharList_cons_neg row '{' []
                        (matchCond_not_head (by simp))]
                      rfl
                    rw [S0, substCharList_cons_neg row '{' ['{']
                      (fun hm => hm.2.2.1 rfl), S0]
                  | cons a t0 =>
                    have ha : a = '}' := by
                      by_contra hne7
                      rw [List.takeWhile_cons_of_pos (by simp [notRB, hne7])] at hA
                      simp at hA
                    subst ha
                    have ht0len : t0.length ≤ n := by
                      simp only [List.length_cons] at hcs_len
                      omega
                    have S1 : substCharList row ('{' :: '}' :: t0) =
                        '{' :: '}' :: substCharList row t0 := by
                      rw [substCharList_cons_neg row '{' ('}' :: t0)
                          (matchCond_not_head (by simp)),
                        substCharList_cons_neg row '}' t0
                          (matchCond_not_lbrace (by decide))]
                    rw [S1]
                    have hnm3 : ¬ matchCond '{' ('{' :: '}' :: substCharList row t0) := by
                      intro hm
                      have h3 := hm.2.2.1
                      rw [List.tail_cons, List.takeWhile_cons_of_neg (by decide)] at h3
                      exact h3 rfl
                    rw [substCharList_cons_neg row '{' _ hnm3,
                      substCharList_cons_neg row '{' _ (matchCond_not_head (by simp)),
                      substCharList_cons_neg row '}' _ (matchCond_not_lbrace (by decide)),
                      ih t0 ht0len]
                | cons a0 A0 =>
                  have hAall : ∀ b ∈ a0 :: A0, b ≠ '}' := by
                    intro b hb
                    have hbtw : b ∈ t.takeWhile notRB := by rw [hA]; exact hb
                    exact notRB_iff.mp (List.mem_takeWhile_imp hbtw)
                  have htsplit : t = t.takeWhile notRB ++ t.dropWhile notRB :=
                    (List.takeWhile_append_dropWhile notRB t).symm
                  cases hD : t.dropWhile notRB with
                  | nil =>
                    have hnomem : '}' ∉ t := by
                      intro hmem7
                      rw [htsplit, hD, List.append_nil, hA] at hmem7
                      exact hAall '}' hmem7 rfl
                    have hnodb : ¬ (['}', '}'] <:+: ('{' :: t)) := by
                      intro hinf
                      have h7 : '}' ∈ '{' :: t := hinf.mem (by simp)
                      rcases List.mem_cons.mp h7 with h8 | h8
                      · exact absurd h8.symm (by decide)
                      · exact hnomem h8
                    have hnodb2 : ¬ (['}', '}'] <:+: ('{' :: '{' :: t)) := by
                      intro hinf
                      have h7 : '}' ∈ '{' :: '{' :: t := hinf.mem (by simp)
                      rcases List.mem_cons.mp h7 with h8 | h8
                      · exact absurd h8.symm (by decide)
                      · rcases List.mem_cons.mp h8 with h9 | h9
                        · exact absurd h9.symm (by decide)
                        · exact hnomem h9
                    rw [substCharList_no_double_rbrace row _ hnodb,
                      substCharList_no_double_rbrace row _ hnodb2]
                  | cons d0 D0 =>
                    have hd0 : d0 = '}' := by
                      have := dropWhile_head_false hD
                      simpa [notRB] using this
                    subst hd0
                    cases D0 with
                    | nil =>
                      have ht : t = (a0 :: A0) ++ ['}'] := by
                        conv_lhs => rw [htsplit]
                        rw [hA, hD]
                      have hcnt : ∀ X : List Char, X = '{' :: t ∨ X = '{' :: '{' :: t →
                          X.count '}' ≤ 1 := by
                        intro X hX
                        have hct : t.count '}' = 1 := by
                          rw [ht, List.count_append]
                          have h0 : (a0 :: A0).count '}' = 0 :=
                            List.count_eq_zero_of_not_mem
                              (fun hmem7 => hAall '}' hmem7 rfl)
                          simp [h0]
                        rcases hX with rfl | rfl <;> simp [List.count_cons, hct]
                      have s1 := substCharList_no_double_rbrace row ('{' :: t)
                        (no_double_rbrace_of_count (hcnt _ (Or.inl rfl)))
                      rw [s1, substCharList_no_double_rbrace row ('{' :: '{' :: t)
                        (no_double_rbrace_of_count (hcnt _ (Or.inr rfl)))]
                    | cons c2 B =>
                      by_cases hc2 : c2 = '}'
                      · exfalso
                        apply h
                        refine ⟨rfl, rfl, ?_, ?_⟩
                        · rw [List.tail_cons, hA]
                          simp
                        · rw [List.tail_cons, hD, hc2]
                          rfl
                      · have ht : t = (a0 :: A0) ++ '}' :: c2 :: B := by
                          conv_lhs => rw [htsplit]
                          rw [hA, hD]
                        have hlen2 : (c2 :: B).length ≤ n := by
                          rw [ht] at hcs_len
                          simp only [List.length_cons, List.length_append] at hcs_len
                          simp only [List.length_cons]
                          omega
                        have hseg1 : substCharList row ('{' :: t) =
                            ('{' :: a0 :: A0) ++ '}' :: substCharList row (c2 :: B) := by
                          have hm1 : ∀ b ∈ '{' :: a0 :: A0, b ≠ '}' := by
                            intro b hb
                            rcases List.mem_cons.mp hb with rfl | hb2
                            · decide
                            · exact hAall b hb2
                          have := substCharList_seg row ('{' :: a0 :: A0) c2 B hm1 hc2
                          rw [show ('{' :: t) = ('{' :: a0 :: A0) ++ '}' :: c2 :: B from
                            by rw [ht]; rfl]
                          exact this
                        obtain ⟨d, ds, hS, hdne, _⟩ := substHead row hrow c2 B
                        have hdne' : d ≠ '}' := hdne hc2
                        rw [hseg1, hS]
                        have hm2 : ∀ b ∈ '{' :: '{' :: a0 :: A0, b ≠ '}' := by
                          intro b hb
                          rcases List.mem_cons.mp hb with rfl | hb2
                          · decide
                          · rcases List.mem_cons.mp hb2 with rfl | hb3
                            · decide
                            · exact hAall b hb3
                        have hseg2 := substCharList_seg row ('{' :: '{' :: a0 :: A0) d ds
                          hm2 hdne'
                        show substCharList row (('{' :: '{' :: a0 :: A0) ++ '}' :: d :: ds)
                          = '{' :: (('{' :: a0 :: A0) ++ '}' :: d :: ds)
                        rw [hseg2, ← hS, ih (c2 :: B) hlen2]
                        rfl
  intro l
  exact key l.length l le_rfl

/-- When every token name of a list misses the row, the scan is the
identity: each matched token is kept verbatim and everything else copied. -/
theorem substCharList_absent (row : DataRow) :
    ∀ l, (∀ nm ∈ tokenNames l, lookupVal row nm = none) → substCharList row l = l := by
  have key : ∀ n l, l.length ≤ n →
      (∀ nm ∈ tokenNames l, lookupVal row nm = none) → substCharList row l = l := by
    intro n
    induction n with
    | zero =>
      intro l hl _
      cases l with
      | nil => rfl
      | cons c cs => simp at hl
    | succ n ih =>
      intro l hl habs
      cases l with
      | nil => rfl
      | cons c cs =>
        have hcs_len : cs.length ≤ n := by simpa using hl
        by_cases h : matchCond c cs
        · obtain ⟨hc, inner, rest2, hcs, hne, hmem, _, _⟩ := matchCond_elim h
          subst hc
          subst hcs
          have hnames := tokenNames_token inner rest2 hne hmem
          have hlook : lookupVal row (String.mk (trimChars inner)) = none := by
            apply habs
            rw [hnames]
            exact List.mem_cons_self _ _
          have hr2len : rest2.length ≤ n := by
            simp only [List.length_cons, List.length_append] at hcs_len
            omega
          have habs2 : ∀ nm ∈ tokenNames rest2, lookupVal row nm = none := by
            intro nm hnm
            apply habs
            rw [hnames]
            exact List.mem_cons_of_mem _ hnm
          rw [substCharList_token row inner rest2 hne hmem]
          simp only [hlook]
          rw [ih rest2 hr2len habs2]
          rfl
        · rw [substCharList_cons_neg row c cs h,
            ih cs hcs_len (by rw [← tokenNames_cons_neg c cs h]; exact habs)]
  intro l
  exact key l.length l le_rfl

/-- Claim C7 (amended): template substitution is idempotent provided every
row value is non-empty and contains no brace characters (without that
proviso a value can itself carry a resolvable placeholder, which a second
pass would resolve). -/
theorem replaceTemplateVariables_idem (row : DataRow) (t : String) (hrow : RowSafe row) :
    replaceTemplateVariables (replaceTemplateVariables t row) row =
      replaceTemplateVariables t row := by
  show String.mk (substCharList row (substCharList row t.data)) =
    String.mk (substCharList row t.data)
  rw [substCharList_idem row hrow t.data]

/-- Counterexample to claim C7 as stated: with the row mapping a to the
literal placeholder text of b and b to 1, substituting the token of a once
yields the token of b, and a second pass changes it again. -/
theorem replaceTemplateVariables_not_idem :
    replaceTemplateVariables (replaceTemplateVariables "\x7b\x7ba\x7d\x7d" rowNested)
        rowNested ≠
      replaceTemplateVariables "\x7b\x7ba\x7d\x7d" rowNested := by decide

/-- Witness instantiating the amended claim C7 at a concrete safe row. -/
theorem replaceTemplateVariables_idem_witness :
    RowSafe [("a", "x")] ∧
      replaceTemplateVariables
          (replaceTemplateVariables "\x7b\x7ba\x7d\x7d" [("a", "x")]) [("a", "x")] =
        replaceTemplateVariables "\x7b\x7ba\x7d\x7d" [("a", "x")] :=
  ⟨by decide, replaceTemplateVariables_idem [("a", "x")] "\x7b\x7ba\x7d\x7d" (by decide)⟩

/-- Unfolding of the token decomposition at a matching position. -/
theorem tokenSplitF_succ_pos (f : Nat) (c : Char) (cs : List Char)
    (h : matchCond c cs) :
    tokenSplitF (f + 1) (c :: cs) =
      Sum.inr (cs.tail.takeWhile notRB) ::
        tokenSplitF f ((cs.tail.dropWhile notRB).drop 2) := by
  simp only [tokenSplitF, if_pos h]

/-- Unfolding of the token decomposition at a non-matching position. -/
theorem tokenSplitF_succ_neg (f : Nat) (c : Char) (cs : List Char)
    (h : ¬ matchCond c cs) :
    tokenSplitF (f + 1) (c :: cs) = Sum.inl [c] :: tokenSplitF f cs := by
  simp only [tokenSplitF, if_neg h]

/-- The token decomposition is fuel-independent above the input length. -/
theorem tokenSplitF_fuel :
    ∀ f l, l.length ≤ f → tokenSplitF f l = tokenSplitF l.length l := by
  intro f
  induction f using Nat.strong_induction_on with
  | _ f ih =>
    intro l hl
    cases l with
    | nil => cases f <;> rfl
    | cons c cs =>
      cases f with
      | zero => exact absurd hl (by simp)
      | succ f =>
        have hcs : cs.length ≤ f := by simpa using hl
        have hlt : f < f + 1 := Nat.lt_succ_self f
        have hcslt : cs.length < f + 1 := Nat.lt_succ_of_le hcs
        show _ = tokenSplitF (cs.length + 1) (c :: cs)
        by_cases h : matchCond c cs
        · have hr2 := dropTwoLenLe cs
          rw [tokenSplitF_succ_pos f c cs h, tokenSplitF_succ_pos cs.length c cs h,
            ih f hlt ((cs.tail.dropWhile notRB).drop 2) (le_trans hr2 hcs),
            ih cs.length hcslt ((cs.tail.dropWhile notRB).drop 2) hr2]
        · rw [tokenSplitF_succ_neg f c cs h, tokenSplitF_succ_neg cs.length c cs h,
            ih f hlt cs hcs, ih cs.length hcslt cs le_rfl]

/-- Token decomposition of a non-matching step. -/
theorem tokenSplit_cons_neg (c : Char) (cs : List Char) (h : ¬ matchCond c cs) :
    tokenSplit (c :: cs) = Sum.inl [c] :: tokenSplit cs := by
  show tokenSplitF (cs.length + 1) (c :: cs) = _
  rw [tokenSplitF_succ_neg cs.length c cs h]
  rfl

/-- Token decomposition of a token-headed list. -/
theorem tokenSplit_token (inner rest2 : List Char) (hne : inner ≠ [])
    (hmem : ∀ a ∈ inner, notRB a = true) :
    tokenSplit ('{' :: '{' :: (inner ++ '}' :: '}' :: rest2)) =
      Sum.inr inner :: tokenSplit rest2 := by
  have hrb : notRB '}' = false := by decide
  have htw : (inner ++ '}' :: '}' :: rest2).takeWhile notRB = inner :=
    takeWhile_append_stop notRB inner '}' ('}' :: rest2) hmem hrb
  have hdw : (inner ++ '}' :: '}' :: rest2).dropWhile notRB = '}' :: '}' :: rest2 :=
    dropWhile_append_stop notRB inner '}' ('}' :: rest2) hmem hrb
  have hcond : matchCond '{' ('{' :: (inner ++ '}' :: '}' :: rest2)) := by
    refine ⟨rfl, rfl, ?_, ?_⟩
    · simpa [htw] using hne
    · simp [hdw]
  show tokenSplitF (('{' :: (inner ++ '}' :: '}' :: rest2)).length + 1) _ = _
  rw [tokenSplitF_succ_pos _ '{' _ hcond]
  simp only [List.tail_cons, htw, hdw, List.drop_succ_cons, List.drop_zero]
  rw [tokenSplitF_fuel _ rest2
    (by simp only [List.length_cons, List.length_append]; omega)]
  rfl

/-- Concatenating the original text of every segment reproduces the
template: the decomposition loses nothing. -/
theorem tokenSplit_flatMap_original :
    ∀ l, (tokenSplit l).flatMap tokenOriginal = l := by
  have key : ∀ n l, l.length ≤ n → (tokenSplit l).flatMap tokenOriginal = l := by
    intro n
    induction n with
    | zero =>
      intro l hl
      cases l with
      | nil => rfl
      | cons c cs => simp at hl
    | succ n ih =>
      intro l hl
      cases l with
      | nil => rfl
      | cons c cs =>
        have hcs_len : cs.length ≤ n := by simpa using hl
        by_cases h : matchCond c cs
        · obtain ⟨hc, inner, rest2, hcs, hne, hmem, _, _⟩ := matchCond_elim h
          subst hc
          subst hcs
          have hr2len : rest2.length ≤ n := by
            simp only [List.length_cons, List.length_append] at hcs_len
            omega
          rw [tokenSplit_token inner rest2 hne hmem]
          simp only [List.flatMap_cons, tokenOriginal]
          rw [ih rest2 hr2len]
          simp [List.append_assoc]
        · rw [tokenSplit_cons_neg c cs h]
          simp only [List.flatMap_cons, tokenOriginal]
          rw [ih cs hcs_len]
          rfl
  intro l
  exact key l.length l le_rfl

/-- The scan renders the decomposition segment by segment: copied
characters unchanged, each token independently resolved or kept. -/
theorem substCharList_eq_flatMap_render (row : DataRow) :
    ∀ l, substCharList row l = (tokenSplit l).flatMap (tokenRender row) := by
  have key : ∀ n l, l.length ≤ n →
      substCharList row l = (tokenSplit l).flatMap (tokenRender row) := by
    intro n
    induction n with
    | zero =>
      intro l hl
      cases l with
      | nil => rfl
      | cons c cs => simp at hl
    | succ n ih =>
      intro l hl
      cases l with
      | nil => rfl
      | cons c cs =>
        have hcs_len : cs.length ≤ n := by simpa using hl
        by_cases h : matchCond c cs
        · obtain ⟨hc, inner, rest2, hcs, hne, hmem, _, _⟩ := matchCond_elim h
          subst hc
          subst hcs
          have hr2len : rest2.length ≤ n := by
            simp only [List.length_cons, List.length_append] at hcs_len
            omega
          rw [substCharList_token row inner rest2 hne hmem,
            tokenSplit_token inner rest2 hne hmem]
          simp only [List.flatMap_cons, tokenRender]
          cases hlook : lookupVal row (String.mk (trimChars inner)) with
          | some v =>
            simp only [hlook]
            rw [ih rest2 hr2len]
          | none =>
            simp only [hlook]
            rw [ih rest2 hr2len]
            simp [List.append_assoc]
        · rw [substCharList_cons_neg row c cs h, tokenSplit_cons_neg c cs h]
          simp only [List.flatMap_cons, tokenRender]
          rw [ih cs hcs_len]
          rfl
  intro l
  exact key l.length l le_rfl

/-- Claim C8: substitution processes every template, mixed ones included,
as its row-independent token decomposition rendered segment by segment:
characters outside tokens are copied, and each placeholder whose trimmed,
case-sensitive name is absent from the row renders as its own original
verbatim token text (placeholders with present names become their values),
so unresolved placeholders survive verbatim in place and substitution
never fails; a template all of whose token names miss the row is returned
unchanged, and in particular the token named missing is preserved against
the empty row. -/
theorem substitute_preserves_unresolved :
    (∀ (t : String) (row : DataRow),
        t.data = (tokenSplit t.data).flatMap tokenOriginal ∧
        replaceTemplateVariables t row =
          String.mk ((tokenSplit t.data).flatMap (tokenRender row)) ∧
        ∀ inner, Sum.inr inner ∈ tokenSplit t.data →
          lookupVal row (String.mk (trimChars inner)) = none →
          tokenRender row (Sum.inr inner) = tokenOriginal (Sum.inr inner)) ∧
    (∀ (t : String) (row : DataRow),
        (∀ nm ∈ tokenNames t.data, lookupVal row nm = none) →
        replaceTemplateVariables t row = t) ∧
    replaceTemplateVariables "\x7b\x7bmissing\x7d\x7d" [] = "\x7b\x7bmissing\x7d\x7d" := by
  refine ⟨?_, ?_, ?_⟩
  · intro t row
    refine ⟨(tokenSplit_flatMap_original t.data).symm, ?_, ?_⟩
    · show String.mk (substCharList row t.data) = _
      rw [substCharList_eq_flatMap_render row t.data]
    · intro inner _ hlook
      simp [tokenRender, tokenOriginal, hlook]
  · intro t row habs
    show String.mk (substCharList row t.data) = t
    rw [substCharList_absent row t.data habs]
  · decide

/-- Witness for claim C8 at a mixed template: with userId present and
missing absent, substitution renders the decomposition (the userId token
becomes 7, the missing token keeps its verbatim text), producing exactly
7/ followed by the verbatim missing token. -/
theorem substitute_preserves_unresolved_witness :
    (Sum.inr "missing".data ∈
        tokenSplit "\x7b\x7buserId\x7d\x7d/\x7b\x7bmissing\x7d\x7d".data ∧
      lookupVal [("userId", "7")] (String.mk (trimChars "missing".data)) = none) ∧
      replaceTemplateVariables "\x7b\x7buserId\x7d\x7d/\x7b\x7bmissing\x7d\x7d"
          [("userId", "7")] =
        String.mk
          ((tokenSplit "\x7b\x7buserId\x7d\x7d/\x7b\x7bmissing\x7d\x7d".data).flatMap
            (tokenRender [("userId", "7")])) ∧
      tokenRender [("userId", "7")] (Sum.inr "missing".data) =
        tokenOriginal (Sum.inr "missing".data) ∧
      replaceTemplateVariables "\x7b\x7buserId\x7d\x7d/\x7b\x7bmissing\x7d\x7d"
          [("userId", "7")] = "7/\x7b\x7bmissing\x7d\x7d" := by
  have hsplit : tokenSplit "\x7b\x7buserId\x7d\x7d/\x7b\x7bmissing\x7d\x7d".data =
      [Sum.inr "userId".data, Sum.inl ['/'], Sum.inr "missing".data] := by decide
  have hmem : Sum.inr "missing".data ∈
      tokenSplit "\x7b\x7buserId\x7d\x7d/\x7b\x7bmissing\x7d\x7d".data := by
    rw [hsplit]
    exact List.Mem.tail _ (List.Mem.tail _ (List.Mem.head _))
  exact ⟨⟨hmem, by decide⟩,
    (substitute_preserves_unresolved.1 "\x7b\x7buserId\x7d\x7d/\x7b\x7bmissing\x7d\x7d"
      [("userId", "7")]).2.1,
    (substitute_preserves_unresolved.1 "\x7b\x7buserId\x7d\x7d/\x7b\x7bmissing\x7d\x7d"
      [("userId", "7")]).2.2 "missing".data hmem (by decide),
    by decide⟩

/-! Auth resolution and application (claim C4). -/

/-- Lookup walks past bindings with other keys. -/
theorem lookupVal_append_right (xs ys : DataRow) (k : String)
    (hxs : ∀ p ∈ xs, p.1 ≠ k) : lookupVal (xs ++ ys) k = lookupVal ys k := by
  induction xs with
  | nil => rfl
  | cons p rest ih =>
    obtain ⟨pk, pv⟩ := p
    have hpk : pk ≠ k := hxs (pk, pv) (by simp)
    rw [List.cons_append]
    show (if pk = k then some pv else lookupVal (rest ++ ys) k) = lookupVal ys k
    rw [if_neg hpk, ih (fun q hq => hxs q (by simp [hq]))]

/-- After Header.Set the key maps to the set value. -/
theorem lookupVal_headerSet_self (hs : List (String × String)) (k v : String) :
    lookupVal (headerSet hs k v) k = some v := by
  unfold headerSet
  rw [lookupVal_append_right _ _ _
    (fun p hp => by simpa using (List.mem_filter.mp hp).2)]
  simp [lookupVal]

/-- Claim C4: resolveAuth picks in strict priority order.  A non-empty CLI
token wins, is wrapped as a bearer auth, and its application sets the
Authorization header to Bearer followed by the substituted token; with an
empty CLI token, request-level auth wins over the collection default, which
is used only when no request-level auth is declared. -/
theorem resolveAuth_priority :
    (∀ (ca ra : Option PostmanAuth) (t : String) (row : DataRow) (req : HttpRequest),
        t ≠ "" →
          resolveAuth ca ra t =
            some { authType := "bearer",
                   bearer := [{ key := "token", value := t, kvType := "string" }],
                   apikey := [], basic := [] } ∧
          lookupVal (applyAuth req (resolveAuth ca ra t) row).headers "Authorization" =
            some ("Bearer " ++ replaceTemplateVariables t row)) ∧
    (∀ (ca : Option PostmanAuth) (ra : PostmanAuth), resolveAuth ca (some ra) "" = some ra) ∧
    (∀ ca : Option PostmanAuth, resolveAuth ca none "" = ca) := by
  refine ⟨?_, ?_, ?_⟩
  · intro ca ra t row req ht
    have hres : resolveAuth ca ra t =
        some { authType := "bearer",
               bearer := [{ key := "token", value := t, kvType := "string" }],
               apikey := [], basic := [] } := by
      simp [resolveAuth, ht]
    refine ⟨hres, ?_⟩
    rw [hres]
    have htok : firstField [{ key := "token", value := t, kvType := "string" }] "token"
        = t := by
      simp [firstField, List.find?]
    show lookupVal (applyAuth req (some _) row).headers "Authorization" = _
    unfold applyAuth
    simp only [htok, if_pos rfl]
    rw [if_pos ht]
    exact lookupVal_headerSet_self req.headers "Authorization" _
  · intro ca ra
    simp [resolveAuth]
  · intro ca
    simp [resolveAuth]

/-- Witness for claim C4: CLI token T over request-level api-key auth and
collection-level basic auth yields the header Authorization Bearer T. -/
theorem resolveAuth_priority_witness :
    ("T" : String) ≠ "" ∧
      lookupVal (applyAuth emptyReq
          (resolveAuth (some basicAuthEx) (some apikeyAuthEx) "T") []).headers
        "Authorization" = some "Bearer T" :=
  ⟨by decide,
    ((resolveAuth_priority.1 (some basicAuthEx) (some apikeyAuthEx) "T" [] emptyReq
      (by decide)).2).trans (by decide)⟩

/-! Structured-body direct-key substitution (claim C6). -/

/-- Claim C6: in a parsed JSON object, every key that names a data column
has its value replaced outright by that column's value, whether or not the
old value was a placeholder token; in particular the spec's example
template with a literal numeric id produces the row's string values for
both keys. -/
theorem replaceJSON_direct_key :
    (∀ (row : DataRow) (k : String) (v : Json) (kvs : List (String × Json)) (c : String),
        lookupVal row k = some c → (k, v) ∈ kvs →
          (k, Json.jstr c) ∈ replaceFields row kvs) ∧
    replaceValuesRecursive [("name", "Alice"), ("id", "99")]
        (Json.jobj [("name", Json.jstr "\x7b\x7bname\x7d\x7d"), ("id", Json.jnum 7)]) =
      Json.jobj [("name", Json.jstr "Alice"), ("id", Json.jstr "99")] := by
  constructor
  · intro row k v kvs c hlook hmem
    induction kvs with
    | nil => simp at hmem
    | cons p rest ih =>
      obtain ⟨pk, pv⟩ := p
      rcases List.mem_cons.mp hmem with heq | hmem2
      · injection heq with hk hv
        subst hk
        subst hv
        simp only [replaceFields, hlook]
        exact List.mem_cons_self _ _
      · simp only [replaceFields]
        exact List.mem_cons_of_mem _ (ih hmem2)
  · simp [replaceValuesRecursive, replaceFields, lookupVal]

/-- Witness for claim C6: key id with literal numeric value 7 is replaced
outright by the row's string value. -/
theorem replaceJSON_direct_key_witness :
    lookupVal [("id", "99")] "id" = some "99" ∧
      ("id", Json.jstr "99") ∈ replaceFields [("id", "99")] [("id", Json.jnum 7)] :=
  ⟨rfl, replaceJSON_direct_key.1 [("id", "99")] "id" (Json.jnum 7)
    [("id", Json.jnum 7)] "99" rfl (by simp)⟩

/-! Query-parameter merging (claim C5). -/

/-- After Set, the key holds exactly the one value. -/
theorem lookupVals_set_self (vs : List (String × List String)) (k v : String) :
    lookupVals (valuesSet vs k v) k = [v] := by
  induction vs with
  | nil => simp [valuesSet, lookupVals]
  | cons p rest ih =>
    obtain ⟨k1, vs1⟩ := p
    by_cases hk : k1 = k
    · simp [valuesSet, hk, lookupVals]
    · simp [valuesSet, hk, lookupVals, ih]

/-- Set leaves other keys alone. -/
theorem lookupVals_set_other (vs : List (String × List String)) (k' v k : String)
    (h : k' ≠ k) : lookupVals (valuesSet vs k' v) k = lookupVals vs k := by
  induction vs with
  | nil => simp [valuesSet, lookupVals, h]
  | cons p rest ih =>
    obtain ⟨k1, vs1⟩ := p
    by_cases hk : k1 = k'
    · subst hk
      simp [valuesSet, lookupVals, h, ih]
    · by_cases hk2 : k1 = k
      · simp [valuesSet, hk, lookupVals, hk2, Ne.symm h]
      · simp [valuesSet, hk, lookupVals, hk2, ih]

/-- Keys after Set: unchanged when present, appended when absent. -/
theorem map_fst_valuesSet (vs : List (String × List String)) (k v : String) :
    (valuesSet vs k v).map Prod.fst =
      if k ∈ vs.map Prod.fst then vs.map Prod.fst else vs.map Prod.fst ++ [k] := by
  induction vs with
  | nil => simp [valuesSet]
  | cons p rest ih =>
    obtain ⟨k1, vs1⟩ := p
    by_cases hk : k1 = k
    · subst hk
      simp [valuesSet]
    · simp only [valuesSet, if_neg hk, List.map_cons, ih]
      by_cases hmem : k ∈ rest.map Prod.fst
      · simp [hmem, Ne.symm hk]
      · simp [hmem, Ne.symm hk]

/-- Set preserves uniqueness of keys. -/
theorem nodup_valuesSet (vs : List (String × List String)) (k v : String)
    (h : (vs.map Prod.fst).Nodup) : ((valuesSet vs k v).map Prod.fst).Nodup := by
  rw [map_fst_valuesSet]
  by_cases hmem : k ∈ vs.map Prod.fst
  · simpa [hmem] using h
  · rw [if_neg hmem]
    exact List.Nodup.append h (List.nodup_singleton k) (by simpa using hmem)

/-- With unique keys, Set leaves the key exactly once. -/
theorem countKey_set_self (vs : List (String × List String)) (k v : String)
    (h : (vs.map Prod.fst).Nodup) : countKey (valuesSet vs k v) k = 1 := by
  unfold countKey
  rw [map_fst_valuesSet]
  by_cases hmem : k ∈ vs.map Prod.fst
  · rw [if_pos hmem]
    exact List.count_eq_one_of_mem h hmem
  · rw [if_neg hmem]
    rw [List.count_append]
    rw [List.count_eq_zero_of_not_mem hmem]
    simp

/-- Set does not change how often other keys occur. -/
theorem countKey_set_other (vs : List (String × List String)) (k' v k : String)
    (h : k' ≠ k) : countKey (valuesSet vs k' v) k = countKey vs k := by
  unfold countKey
  rw [map_fst_valuesSet]
  by_cases hmem : k' ∈ vs.map Prod.fst
  · rw [if_pos hmem]
  · rw [if_neg hmem, List.count_append]
    simp [List.count_singleton, Ne.symm h]

/-- The merge loop preserves uniqueness of keys. -/
theorem nodup_mergeQueryValues (row : DataRow) :
    ∀ (query : List QueryParam) (existing : List (String × List String)),
      (existing.map Prod.fst).Nodup →
      ((mergeQueryValues existing query row).map Prod.fst).Nodup := by
  intro query
  induction query with
  | nil => intro existing h; exact h
  | cons p rest ih =>
    intro existing h
    show ((mergeQueryValues _ rest row).map Prod.fst).Nodup
    by_cases hp : p.key = ""
    · simpa [mergeQueryValues, hp] using ih existing h
    · have := ih (valuesSet existing p.key (replaceTemplateVariables p.value row))
        (nodup_valuesSet _ _ _ h)
      simpa [mergeQueryValues, hp] using this

/-- One step of the merge loop from the right. -/
theorem mergeQueryValues_append (existing : List (String × List String))
    (query : List QueryParam) (p : QueryParam) (row : DataRow) :
    mergeQueryValues existing (query ++ [p]) row =
      (if p.key = "" then mergeQueryValues existing query row
       else valuesSet (mergeQueryValues existing query row) p.key
         (replaceTemplateVariables p.value row)) := by
  unfold mergeQueryValues
  rw [List.foldl_append]
  rfl

/-- One step of the last-declared-value accumulator from the right. -/
theorem lastValueFor_append (query : List QueryParam) (p : QueryParam) (k : String) :
    lastValueFor (query ++ [p]) k =
      (if p.key = k then p.value else lastValueFor query k) := by
  unfold lastValueFor
  rw [List.foldl_append]
  rfl

/-- Last-write-wins merging: a declared non-empty key ends up with exactly
one entry holding the substituted value of its final declaration. -/
theorem mergeQueryValues_last (row : DataRow) :
    ∀ (query : List QueryParam) (existing : List (String × List String)) (k : String),
      (existing.map Prod.fst).Nodup → k ≠ "" → k ∈ query.map QueryParam.key →
        lookupVals (mergeQueryValues existing query row) k =
            [replaceTemplateVariables (lastValueFor query k) row] ∧
          countKey (mergeQueryValues existing query row) k = 1 := by
  intro query
  induction query using List.reverseRecOn with
  | nil => intro existing k _ _ hmem; simp at hmem
  | append_singleton q p ih =>
    intro existing k hnd hk hmem
    rw [mergeQueryValues_append, lastValueFor_append]
    by_cases hpk : p.key = k
    · have hpne : ¬ (p.key = "") := by rw [hpk]; exact hk
      rw [if_neg hpne, if_pos hpk, hpk]
      exact ⟨lookupVals_set_self _ _ _,
        countKey_set_self _ _ _ (nodup_mergeQueryValues row q existing hnd)⟩
    · have hmem2 : k ∈ q.map QueryParam.key := by
        rw [List.map_append] at hmem
        rcases List.mem_append.mp hmem with h1 | h1
        · exact h1
        · exact absurd (List.mem_singleton.mp h1).symm hpk
      rw [if_neg hpk]
      by_cases hpe : p.key = ""
      · rw [if_pos hpe]
        exact ih existing k hnd hk hmem2
      · rw [if_neg hpe]
        obtain ⟨h1, h2⟩ := ih existing k hnd hk hmem2
        exact ⟨(lookupVals_set_other _ _ _ _ hpk).trans h1,
          (countKey_set_other _ _ _ _ hpk).trans h2⟩

/-- Claim C5: merging declared query parameters over a base query is
by-key last-write-wins: any declared non-empty key occurs exactly once in
the merged values, bound to the substituted value of its last declaration;
declared parameters with empty keys are skipped; and on the spec's example
the pre-existing value is overridden so the built URL carries the declared
value exactly once. -/
theorem buildURL_query_merge :
    (∀ (existing : List (String × List String)) (query : List QueryParam)
        (row : DataRow) (k : String),
        (existing.map Prod.fst).Nodup → k ≠ "" → k ∈ query.map QueryParam.key →
          lookupVals (mergeQueryValues existing query row) k =
              [replaceTemplateVariables (lastValueFor query k) row] ∧
            countKey (mergeQueryValues existing query row) k = 1) ∧
    (∀ (existing : List (String × List String)) (query : List QueryParam)
        (row : DataRow) (v : String),
        mergeQueryValues existing ({ key := "", value := v } :: query) row =
          mergeQueryValues existing query row) ∧
    BuildURLWithQueryParams
        { raw := "https://x/y?a=1", query := [{ key := "a", value := "2" }] } [] =
      Except.ok "https://x/y?a=2" := by
  refine ⟨?_, ?_, ?_⟩
  · intro existing query row k hnd hk hmem
    exact mergeQueryValues_last row query existing k hnd hk hmem
  · intro existing query row v
    rfl
  · rfl

/-! Metrics aggregation counts (claim C1). -/

/-- One aggregation step increments exactly one of the two counters. -/
theorem stepMetrics_counts (m : RequestMetrics) (r : RequestResult) :
    (stepMetrics m r).successCount + (stepMetrics m r).failureCount =
      m.successCount + m.failureCount + 1 := by
  unfold stepMetrics
  by_cases hs : r.success <;> simp [hs] <;> split_ifs <;> simp <;> omega

/-- One aggregation step never touches the total. -/
theorem stepMetrics_total (m : RequestMetrics) (r : RequestResult) :
    (stepMetrics m r).totalRequests = m.totalRequests := by
  unfold stepMetrics
  by_cases hs : r.success <;> simp [hs] <;> split_ifs <;> simp

/-- Counter sum after draining a result list. -/
theorem foldl_counts (results : List RequestResult) :
    ∀ m : RequestMetrics,
      (results.foldl stepMetrics m).successCount +
          (results.foldl stepMetrics m).failureCount =
        m.successCount + m.failureCount + results.length := by
  induction results with
  | nil => intro m; simp
  | cons r rest ih =>
    intro m
    rw [List.foldl_cons, ih (stepMetrics m r)]
    have := stepMetrics_counts m r
    simp only [List.length_cons]
    omega

/-- The total after draining a result list. -/
theorem foldl_total (results : List RequestResult) :
    ∀ m : RequestMetrics,
      (results.foldl stepMetrics m).totalRequests = m.totalRequests := by
  induction results with
  | nil => intro m; rfl
  | cons r rest ih =>
    intro m
    rw [List.foldl_cons, ih (stepMetrics m r), stepMetrics_total]

/-- Claim C1: over a completed execution of a leaf item on a non-empty row
list with any worker count of at least one, the drained metrics satisfy
successCount plus failureCount equals totalRequests.  The result stream is
any arrival order of the per-row results: each enqueued row is executed by
exactly one worker and every branch of the worker emits exactly one result,
so the stream is a permutation of the rows' results. -/
theorem itemMetrics_counts (parseJson : String → Option Json) (renderJson : Json → String)
    (item : PostmanItem) (collectionAuth : Option PostmanAuth) (cliToken : String)
    (oracle : HttpRequest → HTTPOutcome) (rows : List DataRow)
    (results : List RequestResult) (workerCount : Nat)
    (hw : 1 ≤ workerCount) (hne : rows ≠ [])
    (hperm : results.Perm (rows.map
      (executeRow parseJson renderJson item collectionAuth cliToken oracle))) :
    (processResults item.name rows.length results).successCount +
        (processResults item.name rows.length results).failureCount =
      (processResults item.name rows.length results).totalRequests := by
  unfold processResults
  rw [foldl_counts, foldl_total]
  have hlen : results.length = rows.length := by
    rw [hperm.length_eq, List.length_map]
  simp [initMetrics, hlen]

/-- Witness for claim C1 at one row, one worker, a 200 response. -/
theorem itemMetrics_counts_witness :
    (1 ≤ 1 ∧ ([[("userId", "1")]] : List DataRow) ≠ []) ∧
      (processResults itemPlain.name ([[("userId", "1")]] : List DataRow).length
            ([[("userId", "1")]].map (executeRow noJson noRender itemPlain none ""
              (fun _ => HTTPOutcome.response 200 3 (Except.ok ""))))).successCount +
          (processResults itemPlain.name ([[("userId", "1")]] : List DataRow).length
            ([[("userId", "1")]].map (executeRow noJson noRender itemPlain none ""
              (fun _ => HTTPOutcome.response 200 3 (Except.ok ""))))).failureCount =
        (processResults itemPlain.name ([[("userId", "1")]] : List DataRow).length
          ([[("userId", "1")]].map (executeRow noJson noRender itemPlain none ""
            (fun _ => HTTPOutcome.response 200 3 (Except.ok ""))))).totalRequests :=
  ⟨⟨le_rfl, by decide⟩,
    itemMetrics_counts noJson noRender itemPlain none ""
      (fun _ => HTTPOutcome.response 200 3 (Except.ok "")) [[("userId", "1")]] _ 1
      le_rfl (by decide) (List.Perm.refl _)⟩

/-! Request-result classification (claim C3). -/

/-- Counterexample to claim C3 as stated: a response whose status code lies
in the success range but whose body read fails yields success equal to
false, so success is not equivalent to the status code lying in the
range. -/
theorem success_iff_status_counterexample :
    ¬ ((readFailResult.success = true) ↔
        (200 ≤ readFailResult.statusCode ∧ readFailResult.statusCode < 300)) := by
  decide

/-- Claim C3 (amended): when the URL builds, a response whose body reads
successfully is classified successful exactly when its status code lies in
[200,300); a failed body read forces failure while keeping the received
status code and recording a read error; and a transport failure yields a
failed result with status code zero and a populated error detail. -/
theorem requestResult_classification (parseJson : String → Option Json)
    (renderJson : Json → String) (item : PostmanItem)
    (collectionAuth : Option PostmanAuth) (cliToken : String)
    (oracle : HttpRequest → HTTPOutcome) (row : DataRow) (finalURL : String)
    (hurl : BuildURLWithQueryParams item.request.url row = .ok finalURL) :
    (∀ status elapsed body,
        oracle (buildRequest parseJson renderJson item collectionAuth cliToken row
            finalURL) = .response status elapsed (.ok body) →
        (((executeRow parseJson renderJson item collectionAuth cliToken oracle
              row).success = true) ↔ (200 ≤ status ∧ status < 300)) ∧
          (executeRow parseJson renderJson item collectionAuth cliToken oracle
            row).statusCode = status) ∧
    (∀ status elapsed msg,
        oracle (buildRequest parseJson renderJson item collectionAuth cliToken row
            finalURL) = .response status elapsed (.error msg) →
        (executeRow parseJson renderJson item collectionAuth cliToken oracle
            row).success = false ∧
          (executeRow parseJson renderJson item collectionAuth cliToken oracle
              row).statusCode = status ∧
          (executeRow parseJson renderJson item collectionAuth cliToken oracle
              row).error = "Error reading response: " ++ msg) ∧
    (∀ msg elapsed,
        oracle (buildRequest parseJson renderJson item collectionAuth cliToken row
            finalURL) = .transportError msg elapsed →
        (executeRow parseJson renderJson item collectionAuth cliToken oracle
            row).success = false ∧
          (executeRow parseJson renderJson item collectionAuth cliToken oracle
              row).statusCode = 0 ∧
          (executeRow parseJson renderJson item collectionAuth cliToken oracle
              row).error = "Request failed: " ++ msg ∧
          (executeRow parseJson renderJson item collectionAuth cliToken oracle
              row).error ≠ "") := by
  refine ⟨?_, ?_, ?_⟩
  · intro status elapsed body horacle
    unfold executeRow
    rw [hurl]
    simp only [horacle]
    by_cases hP : 200 ≤ status ∧ status < 300
    · simp [hP]
    · simp [hP]
  · intro status elapsed msg horacle
    unfold executeRow
    rw [hurl]
    simp only [horacle]
    simp
  · intro msg elapsed horacle
    unfold executeRow
    rw [hurl]
    have hne2 : ("Request failed: " ++ msg : String) ≠ "" := by
      intro hEq
      have h2 := congrArg String.data hEq
      rw [String.data_append] at h2
      simp at h2
    simp only [horacle]
    simp [hne2]

/-- Witness for claim C3's amended statement at a concrete transport
failure: connection refused yields failure, status code zero, and the
populated transport error detail. -/
theorem requestResult_classification_witness :
    BuildURLWithQueryParams itemPlain.request.url [] = .ok "https://x" ∧
      (executeRow noJson noRender itemPlain none ""
          (fun _ => HTTPOutcome.transportError "connection refused" 7) []).success
        = false ∧
      (executeRow noJson noRender itemPlain none ""
          (fun _ => HTTPOutcome.transportError "connection refused" 7) []).statusCode
        = 0 ∧
      (executeRow noJson noRender itemPlain none ""
          (fun _ => HTTPOutcome.transportError "connection refused" 7) []).error
        = "Request failed: connection refused" := by
  have h := (requestResult_classification noJson noRender itemPlain none ""
    (fun _ => HTTPOutcome.transportError "connection refused" 7) [] "https://x"
    rfl).2.2 "connection refused" 7 rfl
  exact ⟨rfl, h.1, h.2.1, h.2.2.1⟩

/-- Witness instantiating the merge conjunct of claim C5 at the spec's
concrete example values. -/
theorem buildURL_query_merge_witness :
    ((([("a", ["1"])] : List (String × List String)).map Prod.fst).Nodup ∧
        ("a" : String) ≠ "" ∧
        "a" ∈ ([{ key := "a", value := "2" }] : List QueryParam).map QueryParam.key) ∧
      lookupVals (mergeQueryValues [("a", ["1"])] [{ key := "a", value := "2" }] []) "a"
          = ["2"] ∧
        countKey (mergeQueryValues [("a", ["1"])] [{ key := "a", value := "2" }] []) "a"
          = 1 := by
  have h := buildURL_query_merge.1 [("a", ["1"])] [{ key := "a", value := "2" }] [] "a"
    (by decide) (by decide) (by decide)
  exact ⟨⟨by decide, by decide, by decide⟩, h.1.trans (by decide), h.2⟩

/-! Failure export round trip (claim C2). -/

/-- Pairing a mapped prefix of headers with its own values. -/
theorem mkRow_map_append (g : String → String) (ko rest vals : List String) :
    mkRow (ko ++ rest) (ko.map g ++ vals) =
      ko.map (fun h => (h, g h)) ++ mkRow rest vals := by
  induction ko with
  | nil => rfl
  | cons h hs ih =>
    simp only [List.cons_append, List.map_cons, mkRow]
    exact congrArg (List.cons (h, g h)) ih

/-- Looking up a key of a keyed mapping of a list. -/
theorem lookupVal_map_self (g : String → String) (ko : List String) (k : String)
    (hk : k ∈ ko) : lookupVal (ko.map (fun h => (h, g h))) k = some (g k) := by
  induction ko with
  | nil => simp at hk
  | cons h hs ih =>
    by_cases hh : h = k
    · subst hh
      simp [lookupVal]
    · rcases List.mem_cons.mp hk with h1 | h1
      · exact absurd h1.symm hh
      · simp only [List.map_cons]
        show (if h = k then some (g h) else _) = _
        rw [if_neg hh]
        exact ih h1

/-- A successful lookup survives appending on the right. -/
theorem lookupVal_append_left (xs ys : DataRow) (k v : String)
    (h : lookupVal xs k = some v) : lookupVal (xs ++ ys) k = some v := by
  induction xs with
  | nil => simp [lookupVal] at h
  | cons p rest ih =>
    obtain ⟨pk, pv⟩ := p
    by_cases hk : pk = k
    · subst hk
      have h2 : some pv = some v := by simpa [lookupVal] using h
      simp [lookupVal, h2]
    · rw [List.cons_append]
      show (if pk = k then some pv else _) = _
      rw [if_neg hk]
      exact ih (by simpa [lookupVal, hk] using h)

/-- A key among the bindings has a value. -/
theorem lookupVal_isSome_of_mem (l : DataRow) (k : String)
    (h : k ∈ l.map Prod.fst) : ∃ v, lookupVal l k = some v := by
  induction l with
  | nil => simp at h
  | cons p rest ih =>
    obtain ⟨pk, pv⟩ := p
    by_cases hk : pk = k
    · subst hk
      exact ⟨pv, by simp [lookupVal]⟩
    · rcases List.mem_cons.mp h with h1 | h1
      · exact absurd h1.symm hk
      · obtain ⟨v, hv⟩ := ih h1
        refine ⟨v, ?_⟩
        show (if pk = k then some pv else _) = _
        rw [if_neg hk]
        exact hv

/-- Counterexample to claim C2 as stated: the exporter enumerates columns
in Go map iteration order, which need not be the original input's column
order; for the single failed row over columns userId then name, the
enumeration name then userId is a valid iteration order, and the exported
header's original-column prefix differs from the original order. -/
theorem export_column_order_counterexample :
    validKeyOrder ["name", "userId"] [failedR] ∧
      failedR.csvData.map Prod.fst = ["userId", "name"] ∧
      (saveFailedRequestsTable ["name", "userId"] [failedR]).head? =
        some (["name", "userId"] ++ errorColumns) ∧
      (["name", "userId"] : List String) ≠ ["userId", "name"] := by
  refine ⟨by decide, by decide, rfl, by decide⟩

/-- Claim C2 (amended): for failed rows all carrying the original column
set, exporting under any permutation of those columns and re-reading the
table as a CSV source succeeds and reproduces, for every original column,
exactly the original value of every row (the fault-detail columns are
appended after the original ones and do not disturb the lookup). -/
theorem export_roundTrip (cols keyOrder : List String) (frs : List RequestResult)
    (hne : frs ≠ [])
    (hcols : ∀ fr ∈ frs, fr.csvData.map Prod.fst = cols)
    (hperm : keyOrder.Perm cols) :
    readCSVTable (saveFailedRequestsTable keyOrder frs) =
        .ok (frs.map (fun fr =>
          mkRow (keyOrder ++ errorColumns) (exportRowFields keyOrder fr))) ∧
      ∀ fr ∈ frs, ∀ k ∈ cols,
        lookupVal (mkRow (keyOrder ++ errorColumns) (exportRowFields keyOrder fr)) k =
          lookupVal fr.csvData k := by
  constructor
  · show (if keyOrder ++ errorColumns = [] then _ else
      Except.ok ((frs.map (exportRowFields keyOrder)).map
        (mkRow (keyOrder ++ errorColumns)))) = _
    rw [if_neg (by simp [errorColumns]), List.map_map]
    rfl
  · intro fr hfr k hk
    have hkord : k ∈ keyOrder := hperm.mem_iff.mpr hk
    have hkeys : k ∈ fr.csvData.map Prod.fst := by rw [hcols fr hfr]; exact hk
    obtain ⟨v, hv⟩ := lookupVal_isSome_of_mem fr.csvData k hkeys
    rw [hv]
    show lookupVal (mkRow (keyOrder ++ errorColumns)
      (keyOrder.map (fun h => (lookupVal fr.csvData h).getD "") ++ _)) k = _
    rw [mkRow_map_append]
    rw [lookupVal_append_left _ _ k ((lookupVal fr.csvData k).getD "")
      (lookupVal_map_self _ keyOrder k hkord)]
    rw [hv]
    rfl

/-- Witness for claim C2's amended statement: one failed row over the
columns userId and name, exported in the original order, re-reads to the
original userId value. -/
theorem export_roundTrip_witness :
    (([failedR] : List RequestResult) ≠ [] ∧
        (["userId", "name"] : List String).Perm ["userId", "name"]) ∧
      lookupVal (mkRow (["userId", "name"] ++ errorColumns)
          (exportRowFields ["userId", "name"] failedR)) "userId" =
        lookupVal failedR.csvData "userId" :=
  ⟨⟨by decide, List.Perm.refl _⟩,
    (export_roundTrip ["userId", "name"] ["userId", "name"] [failedR]
      (by decide) (by decide) (List.Perm.refl _)).2 failedR (by simp) "userId"
      (by decide)⟩
